import Mathlib

/-!
# VIA log anomaly detection service — verification of the specification

Shallow embedding of the core of the VIA repository (log-to-fingerprint
pipeline, rhythm analyzer, promotion, control registry, forensic query
layer) and proofs of the frozen claims about it.

External collaborators (the vector database, the embedding models, the
clock, the local timezone) are modelled as explicit parameters, following
the specification's scope: the embedding models are pure functions from
text to vectors, the vector store is a typed service whose reads appear
as inputs.

Python floats are modelled as exact rationals `ℚ`; the square root used
by the frequency threshold is handled by an exact decision procedure
(comparisons against `mean + 2.5·max(1.5, √mean)` are decided by
squaring), and the link with the real `Real.sqrt` formula is proved.
-/

set_option maxRecDepth 1000000

namespace VIA

/-! ## SHA-256 (hashlib.sha256(·).hexdigest()), over `Nat` bytes/words -/

/-- Truncate to a 32-bit word. -/
def u32 (n : Nat) : Nat := n % 4294967296

/-- 32-bit right rotation. -/
def rotr (x n : Nat) : Nat := u32 ((x >>> n) ||| (x <<< (32 - n)))

def bigSigma0 (x : Nat) : Nat := (rotr x 2) ^^^ (rotr x 13) ^^^ (rotr x 22)
def bigSigma1 (x : Nat) : Nat := (rotr x 6) ^^^ (rotr x 11) ^^^ (rotr x 25)
def smallSigma0 (x : Nat) : Nat := (rotr x 7) ^^^ (rotr x 18) ^^^ (x >>> 3)
def smallSigma1 (x : Nat) : Nat := (rotr x 17) ^^^ (rotr x 19) ^^^ (x >>> 10)
def chOf (x y z : Nat) : Nat := (x &&& y) ^^^ ((x ^^^ 4294967295) &&& z)
def majOf (x y z : Nat) : Nat := (x &&& y) ^^^ (x &&& z) ^^^ (y &&& z)

/-- The 64 SHA-256 round constants. -/
def sha256K : List Nat :=
  [1116352408, 1899447441, 3049323471, 3921009573, 961987163, 1508970993,
   2453635748, 2870763221, 3624381080, 310598401, 607225278, 1426881987,
   1925078388, 2162078206, 2614888103, 3248222580, 3835390401, 4022224774,
   264347078, 604807628, 770255983, 1249150122, 1555081692, 1996064986,
   2554220882, 2821834349, 2952996808, 3210313671, 3336571891, 3584528711,
   113926993, 338241895, 666307205, 773529912, 1294757372, 1396182291,
   1695183700, 1986661051, 2177026350, 2456956037, 2730485921, 2820302411,
   3259730800, 3345764771, 3516065817, 3600352804, 4094571909, 275423344,
   430227734, 506948616, 659060556, 883997877, 958139571, 1322822218,
   1537002063, 1747873779, 1955562222, 2024104815, 2227730452, 2361852424,
   2428436474, 2756734187, 3204031479, 3329325298]

/-- SHA-256 initial hash state. -/
def sha256H0 : List Nat :=
  [1779033703, 3144134277, 1013904242, 2773480762,
   1359893119, 2600822924, 528734635, 1541459225]

/-- Extend the 16-word block into the full 64-word message schedule:
`n` more words to append. -/
def sha256Schedule : Nat → List Nat → List Nat
  | 0, w => w
  | n + 1, w =>
    let L := w.length
    let nw := u32 (smallSigma1 (w.getD (L - 2) 0) + w.getD (L - 7) 0 +
                   smallSigma0 (w.getD (L - 15) 0) + w.getD (L - 16) 0)
    sha256Schedule n (w ++ [nw])

/-- One SHA-256 round on the working state `[a,b,c,d,e,f,g,h]`. -/
def sha256Round (st : List Nat) (kw : Nat × Nat) : List Nat :=
  match st with
  | [a, b, c, d, e, f, g, h] =>
    let t1 := u32 (h + bigSigma1 e + chOf e f g + kw.1 + kw.2)
    let t2 := u32 (bigSigma0 a + majOf a b c)
    [u32 (t1 + t2), a, b, c, u32 (d + t1), e, f, g]
  | other => other

/-- Compress one 64-word schedule into the running hash. -/
def sha256Compress (h : List Nat) (w : List Nat) : List Nat :=
  let st := (sha256K.zip w).foldl sha256Round h
  (h.zip st).map fun p => u32 (p.1 + p.2)

/-- Group a byte list into 32-bit big-endian words. -/
def bytesToWords : List Nat → List Nat
  | b0 :: b1 :: b2 :: b3 :: rest =>
    (b0 <<< 24 ||| b1 <<< 16 ||| b2 <<< 8 ||| b3) :: bytesToWords rest
  | _ => []

/-- Split a word list into 16-word chunks (fuel-driven for kernel reduction). -/
def chunk16Fuel : Nat → List Nat → List (List Nat)
  | 0, _ => []
  | _, [] => []
  | fuel + 1, l => l.take 16 :: chunk16Fuel fuel (l.drop 16)

/-- Split a word list into 16-word chunks. -/
def chunk16 (l : List Nat) : List (List Nat) := chunk16Fuel l.length l

/-- Big-endian bytes of `n`, fixed width `w`. -/
def beBytes (w n : Nat) : List Nat :=
  match w with
  | 0 => []
  | k + 1 => beBytes k (n >>> 8) ++ [n % 256]

/-- SHA-256 padding of a byte string. -/
def sha256Pad (msg : List Nat) : List Nat :=
  let L := msg.length
  let zeros := (119 - L % 64) % 64
  msg ++ [0x80] ++ List.replicate zeros 0 ++ beBytes 8 (8 * L)

/-- Hex digit characters, lowercase. -/
def hexChar (n : Nat) : Char :=
  if n < 10 then Char.ofNat (48 + n) else Char.ofNat (87 + n)

/-- Lowercase hex rendering of a word, fixed width `w` digits. -/
def hexFixed (w n : Nat) : List Char :=
  match w with
  | 0 => []
  | k + 1 => hexFixed k (n >>> 4) ++ [hexChar (n % 16)]

/-- SHA-256 of a byte string, as a lowercase hex string
(`hashlib.sha256(b).hexdigest()`). -/
def sha256HexBytes (msg : List Nat) : String :=
  let blocks := chunk16 (bytesToWords (sha256Pad msg))
  let hfin := blocks.foldl (fun h blk => sha256Compress h (sha256Schedule 48 blk)) sha256H0
  ⟨(hfin.map (hexFixed 8)).flatten⟩

/-- UTF-8 encoding of one character. -/
def utf8Char (c : Char) : List Nat :=
  let n := c.toNat
  if n < 0x80 then [n]
  else if n < 0x800 then [0xc0 ||| (n >>> 6), 0x80 ||| (n &&& 63)]
  else if n < 0x10000 then
    [0xe0 ||| (n >>> 12), 0x80 ||| ((n >>> 6) &&& 63), 0x80 ||| (n &&& 63)]
  else
    [0xf0 ||| (n >>> 18), 0x80 ||| ((n >>> 12) &&& 63),
     0x80 ||| ((n >>> 6) &&& 63), 0x80 ||| (n &&& 63)]

/-- UTF-8 bytes of a string (`s.encode()` in Python). -/
def utf8Bytes (s : String) : List Nat := s.data.flatMap utf8Char

/-- `hashlib.sha256(s.encode()).hexdigest()`. -/
def sha256Hex (s : String) : String := sha256HexBytes (utf8Bytes s)

/-! ## Python `json.dumps` on a list of strings, and Python `sorted` -/

/-- Python `json.dumps` escaping of one character (default `ensure_ascii=True`:
characters outside `0x20..0x7e` become `\uXXXX`, lowercase hex; the short
escapes match CPython's `ESCAPE_DCT`). -/
def jsonEscapeChar (c : Char) : List Char :=
  if c = '"' then ['\\', '"']
  else if c = '\\' then ['\\', '\\']
  else if c.toNat = 8 then ['\\', 'b']
  else if c.toNat = 9 then ['\\', 't']
  else if c.toNat = 10 then ['\\', 'n']
  else if c.toNat = 12 then ['\\', 'f']
  else if c.toNat = 13 then ['\\', 'r']
  else if 32 ≤ c.toNat ∧ c.toNat ≤ 126 then [c]
  else if c.toNat < 0x10000 then '\\' :: 'u' :: hexFixed 4 c.toNat
  else
    let n := c.toNat - 0x10000
    '\\' :: 'u' :: hexFixed 4 (0xd800 + (n >>> 10)) ++
      '\\' :: 'u' :: hexFixed 4 (0xdc00 + (n &&& 0x3ff))

/-- Python `json.dumps` of a single string. -/
def jsonDumpsStr (s : String) : String :=
  ⟨'"' :: s.data.flatMap jsonEscapeChar ++ ['"']⟩

/-- Python `json.dumps` of a list of strings (default separator `", "`). -/
def jsonDumpsList (l : List String) : String :=
  "[" ++ String.intercalate ", " (l.map jsonDumpsStr) ++ "]"

/-- Lexicographic code-point comparison on character lists (Python's
string `<=`). -/
def lexLeChars : List Char → List Char → Bool
  | [], _ => true
  | _ :: _, [] => false
  | a :: as, b :: bs =>
    if a.toNat < b.toNat then true
    else if b.toNat < a.toNat then false
    else lexLeChars as bs

def strLe (a b : String) : Bool := lexLeChars a.data b.data

/-- Python `sorted` on a list of strings: stable sort in lexicographic
code-point order. -/
def sortedStrings (l : List String) : List String :=
  l.insertionSort (fun a b => strLe a b = true)

/-! ## The templating regexes (`IngestionService._get_template`)

A small backtracking matcher faithful to the three Python patterns
`\b[0-9a-f]{8}-[0-9a-f]{4}-[0-9a-f]{4}-[0-9a-f]{4}-[0-9a-f]{12}\b`,
`\b\d{1,3}\.\d{1,3}\.\d{1,3}\.\d{1,3}\b` and `\b\d+\b`.

A pattern is a sequence of greedy counted character-class repetitions.
The leading `\b` is equivalent (for these patterns, whose first class
contains only word characters) to "the previous character is absent or a
non-word character"; the trailing `\b` can be checked after the greedy
match because every backtracked alternative of these patterns leaves a
word character (a digit or hex digit) at the head of the remainder, so
whenever the greedy-first match fails the trailing `\b`, every other
alternative fails it too, exactly as in Python's engine. -/

/-- Python's `\w` for ASCII text: letters, digits, underscore. -/
def isWordChar (c : Char) : Bool := c.isAlphanum || c = '_'

/-- One pattern element: a character class repeated between `lo` and `hi`
times (`hi = none` means unbounded), matched greedily. -/
structure PatElem where
  cls : Char → Bool
  lo : Nat
  hi : Option Nat

/-- Length of the longest prefix whose characters satisfy `p`. -/
def runLen (p : Char → Bool) : List Char → Nat
  | [] => 0
  | c :: t => if p c then runLen p t + 1 else 0

/-- Greedy counted repetition with backtracking: try to consume `k`
characters (already known to satisfy the class), hand the rest to the
continuation, and on failure retry with `k - 1`, down to `lo`. -/
def tryCount (cont : List Char → Option (List Char × List Char)) (lo : Nat)
    (l : List Char) : Nat → Option (List Char × List Char)
  | 0 =>
    if 0 < lo then none
    else (cont l).map fun pr => (pr.1, pr.2)
  | k + 1 =>
    if k + 1 < lo then none
    else
      match cont (l.drop (k + 1)) with
      | some pr => some (l.take (k + 1) ++ pr.1, pr.2)
      | none => tryCount cont lo l k

/-- Match a sequence of pattern elements at the head of `l`, returning the
consumed characters and the remainder. -/
def matchElems : List PatElem → List Char → Option (List Char × List Char)
  | [], l => some ([], l)
  | e :: es, l =>
    let m := match e.hi with
      | some hh => min hh (runLen e.cls l)
      | none => runLen e.cls l
    tryCount (matchElems es) e.lo l m

/-- The trailing `\b`, given that every match of our patterns ends in a
word character: the remainder must be empty or start with a non-word
character. -/
def endBoundary : List Char → Bool
  | [] => true
  | c :: _ => !isWordChar c

/-- Match one whole token (pattern elements plus trailing `\b`) at the
head of `l`. -/
def matchToken (pat : List PatElem) (l : List Char) :
    Option (List Char × List Char) :=
  match matchElems pat l with
  | some pr => if endBoundary pr.2 then some pr else none
  | none => none

/-- Left-to-right scan of `re.sub(pat, "*", ·)`: at each position where the
previous character is not a word character (the leading `\b`), attempt a
token match; on success emit `*` and resume after the match, otherwise
copy the character.  `fuel ≥ length of the input` makes it structural. -/
def subScanGo (pat : List PatElem) : Nat → Bool → List Char → List Char
  | 0, _, l => l
  | _ + 1, _, [] => []
  | fuel + 1, prevW, c :: rest =>
    if prevW then c :: subScanGo pat fuel (isWordChar c) rest
    else
      match matchToken pat (c :: rest) with
      | some pr => '*' :: subScanGo pat fuel (isWordChar (pr.1.getLastD c)) pr.2
      | none => c :: subScanGo pat fuel (isWordChar c) rest

/-- `re.sub(pat, "*", s)` for our word-boundary-delimited patterns. -/
def reSub (pat : List PatElem) (s : String) : String :=
  ⟨subScanGo pat s.data.length false s.data⟩

/-- Lowercase hex digit class `[0-9a-f]`. -/
def hexLowerCh (c : Char) : Bool := c.isDigit || ('a' ≤ c && c ≤ 'f')

def isDigitCh (c : Char) : Bool := c.isDigit
def isDashCh (c : Char) : Bool := c = '-'
def isDotCh (c : Char) : Bool := c = '.'

/-- `\b[0-9a-f]{8}-[0-9a-f]{4}-[0-9a-f]{4}-[0-9a-f]{4}-[0-9a-f]{12}\b`. -/
def uuidPat : List PatElem :=
  [⟨hexLowerCh, 8, some 8⟩, ⟨isDashCh, 1, some 1⟩,
   ⟨hexLowerCh, 4, some 4⟩, ⟨isDashCh, 1, some 1⟩,
   ⟨hexLowerCh, 4, some 4⟩, ⟨isDashCh, 1, some 1⟩,
   ⟨hexLowerCh, 4, some 4⟩, ⟨isDashCh, 1, some 1⟩,
   ⟨hexLowerCh, 12, some 12⟩]

/-- `\b\d{1,3}\.\d{1,3}\.\d{1,3}\.\d{1,3}\b`. -/
def ipv4Pat : List PatElem :=
  [⟨isDigitCh, 1, some 3⟩, ⟨isDotCh, 1, some 1⟩,
   ⟨isDigitCh, 1, some 3⟩, ⟨isDotCh, 1, some 1⟩,
   ⟨isDigitCh, 1, some 3⟩, ⟨isDotCh, 1, some 1⟩,
   ⟨isDigitCh, 1, some 3⟩]

/-- `\b\d+\b`. -/
def digitsPat : List PatElem := [⟨isDigitCh, 1, none⟩]

/-- `IngestionService._get_template`: the three `re.sub` passes in source
order (UUIDs, then IPv4 quads, then digit runs). -/
def getTemplate (body : String) : String :=
  reSub digitsPat (reSub ipv4Pat (reSub uuidPat body))

/-! ## Data model (`app/schemas/models.py` and the service payloads) -/

structure OTelAttr where
  key : String
  value : String
deriving DecidableEq

structure OTelLogRecord where
  TimeUnixNano : Int
  SeverityText : String
  Body : String
  Attributes : List OTelAttr
deriving DecidableEq

/-- Nested OTLP attribute: `key`, and the values of the `value` object in
order (the code reads `list(a["value"].values())[0]`, which raises on an
empty object). -/
structure NestedAttr where
  key : String
  value : List String
deriving DecidableEq

structure NestedBody where
  stringValue : Option String
deriving DecidableEq

structure NestedLogRecord where
  timeUnixNano : Option Int
  body : Option NestedBody
  attributes : Option (List NestedAttr)
deriving DecidableEq

structure NestedScope where
  logRecords : Option (List NestedLogRecord)
deriving DecidableEq

structure NestedResource where
  attributes : Option (List NestedAttr)
deriving DecidableEq

structure NestedResourceLog where
  resource : Option NestedResource
  scopeLogs : Option (List NestedScope)
deriving DecidableEq

structure NestedShape where
  resourceLogs : Option (List NestedResourceLog)
deriving DecidableEq

/-- A raw input record: either the flattened Pydantic shape or the nested
OTLP `resourceLogs` shape. -/
inductive RawLog
  | flat (r : OTelLogRecord)
  | nested (n : NestedShape)
deriving DecidableEq

/-- A Tier-1 point payload.  `anomaly_type` / `anomaly_context` are absent
on ingestion and added by the analyzer (Python adds dict keys). -/
structure Payload where
  rhythm_hash : String
  service : String
  ts : Int
  severity : String
  body : String
  full_log_json : RawLog
  anomaly_type : Option String := none
  anomaly_context : Option String := none
deriving DecidableEq

/-- A Tier-2 event-cluster payload (`PromotionService.promote_anomalies`). -/
structure EventPayload where
  entity_type : String
  rhythm_hash : String
  start_ts : Int
  end_ts : Int
  count : Nat
  service : String
  severity : String
  anomaly_type : String
  anomaly_context : String
  body : String
  sample_logs : List RawLog
deriving DecidableEq

/-! ## Generic ordered-dict helpers (Python `dict` / `Counter` semantics) -/

/-- First-occurrence-ordered distinct keys of a list (`dict` / `Counter`
iteration order).  Fuel-driven so the kernel can evaluate it. -/
def counterKeysGo : Nat → List String → List String
  | 0, _ => []
  | _, [] => []
  | fuel + 1, h :: t => h :: counterKeysGo fuel (t.filter (fun x => !(x == h)))

def counterKeys (l : List String) : List String := counterKeysGo l.length l

/-- `collections.Counter(l).items()`: first-occurrence key order with total
counts. -/
def counterItems (l : List String) : List (String × Nat) :=
  (counterKeys l).map fun h => (h, l.count h)

/-- Group a list by a string key, preserving first-occurrence key order and
within-group element order (Python `dict.setdefault(...).append(...)`). -/
def groupByKeyGo (key : α → String) : Nat → List α → List (String × List α)
  | 0, _ => []
  | _, [] => []
  | fuel + 1, x :: t =>
    (key x, x :: t.filter (fun y => key y == key x)) ::
      groupByKeyGo key fuel (t.filter (fun y => !(key y == key x)))

def groupByKey (key : α → String) (l : List α) : List (String × List α) :=
  groupByKeyGo key l.length l

/-- Python `{k: v for (k, v) in l}`: first-occurrence key order, last value
wins. -/
def dictPairsGo : Nat → List (String × String) → List (String × String)
  | 0, _ => []
  | _, [] => []
  | fuel + 1, (k, v) :: t =>
    (k, (((t.filter (fun p => p.1 == k)).getLast?).map (·.2)).getD v) ::
      dictPairsGo fuel (t.filter (fun p => !(p.1 == k)))

def dictPairs (l : List (String × String)) : List (String × String) :=
  dictPairsGo l.length l

/-- Python `d.get(k, dflt)` on an association list with distinct keys. -/
def lookupD (m : List (String × String)) (k dflt : String) : String :=
  (((m.find? (fun p => p.1 == k))).map (·.2)).getD dflt

/-! ## Fingerprinter (`IngestionService._get_rhythm_hash`)

The small dense embedding model is an external pure function (spec §1);
`embedStr` models `str(list(self.embed_model.embed([template]))[0])`, the
stringified embedding that the code hashes. -/

/-- `IngestionService._get_rhythm_hash`: template hash, structural hash
over the JSON dump of the sorted attribute keys, and semantic hash over
the stringified embedding of the template. -/
def getRhythmHash (embedStr : String → String) (r : OTelLogRecord) : String :=
  let template := getTemplate r.Body
  let templateHash := (sha256Hex template).take 16
  let attributeKeys := sortedStrings (r.Attributes.map (·.key))
  let structuralHash := (sha256Hex (jsonDumpsList attributeKeys)).take 16
  let semanticHash := (sha256Hex (embedStr template)).take 16
  templateHash ++ ":" ++ structuralHash ++ ":" ++ semanticHash

/-! ## Ingestion (`IngestionService.ingest_log_batch`) -/

structure ParsedLog where
  service : String
  ts : Int
  body : String
  attrs : List (String × String)
  full : RawLog
deriving DecidableEq

/-- Flatten nested OTLP attributes; `list(a["value"].values())[0]` raises
(hence `Except`) when the value object is empty. -/
def nestedAttrPairs : List NestedAttr → Except Unit (List (String × String))
  | [] => .ok []
  | a :: t =>
    match a.value with
    | [] => .error ()
    | v :: _ => (nestedAttrPairs t).map (fun r => (a.key, v) :: r)

/-- Parse one raw record into the canonical shape.  The nested branch
mirrors the code's bare subscripts `raw["resourceLogs"][0]`,
`rl["scopeLogs"][0]`, `scope["logRecords"][0]`, `rec["timeUnixNano"]`:
a missing key or empty list raises, which `Except.error` models.  The
flat branch cannot fail. -/
def parseRaw : RawLog → Except Unit ParsedLog
  | .flat r =>
    let attrs := dictPairs (r.Attributes.map fun a => (a.key, a.value))
    .ok { service := lookupD attrs "service.name" "unknown"
          ts := Int.fdiv r.TimeUnixNano 1000000000
          body := r.Body
          attrs := attrs
          full := .flat r }
  | .nested n =>
    match n.resourceLogs with
    | none => .error ()
    | some [] => .error ()
    | some (rl :: _) =>
      match rl.scopeLogs with
      | none => .error ()
      | some [] => .error ()
      | some (scope :: _) =>
        match scope.logRecords with
        | none => .error ()
        | some [] => .error ()
        | some (lrec :: _) =>
          let rattrsList := match rl.resource with
            | some res => res.attributes.getD []
            | none => []
          match nestedAttrPairs rattrsList with
          | .error e => .error e
          | .ok rattrs =>
            match lrec.timeUnixNano with
            | none => .error ()
            | some t =>
              let body := match lrec.body with
                | some b => b.stringValue.getD ""
                | none => ""
              match nestedAttrPairs (lrec.attributes.getD []) with
              | .error e => .error e
              | .ok attrs =>
                -- `int(int(ts)/1e9)` truncates toward zero (float rounding
                -- at nanosecond magnitudes is not modelled)
                .ok { service := lookupD (dictPairs rattrs) "service.name" "unknown"
                      ts := Int.tdiv t 1000000000
                      body := body
                      attrs := dictPairs attrs
                      full := .nested n }

structure Tier1Prepared where
  template : String
  payload : Payload
deriving DecidableEq

/-- Build the prepared Tier-1 point for one parsed record.  The code
fabricates a minimal record (`type("F", ...)`) carrying only `Body` and
`Attributes` for hashing; the other two fields are unused by
`_get_rhythm_hash` and set to dummies here.  `severity` is the literal
"INFO" (source line 80). -/
def buildPoint (embedStr : String → String) (p : ParsedLog) : Tier1Prepared :=
  { template := getTemplate p.body
    payload :=
      { rhythm_hash := getRhythmHash embedStr
          ⟨0, "INFO", p.body, p.attrs.map fun pr => ⟨pr.1, pr.2⟩⟩
        service := p.service
        ts := p.ts
        severity := "INFO"
        body := p.body
        full_log_json := p.full } }

def ingestLogBatchGo (embedStr : String → String) :
    List RawLog → Except Unit (List Tier1Prepared)
  | [] => .ok []
  | raw :: t =>
    match parseRaw raw with
    | .error e => .error e
    | .ok p => (ingestLogBatchGo embedStr t).map (buildPoint embedStr p :: ·)

/-- `IngestionService.ingest_log_batch`: prepares every record of the
batch (any malformed record raises, failing the whole call) and returns
the prepared points together with the count that
`embed_and_upsert_tier1` reports (the number of points). -/
def ingestLogBatch (embedStr : String → String) (logs : List RawLog) :
    Except Unit (List Tier1Prepared × Nat) :=
  (ingestLogBatchGo embedStr logs).map fun pts => (pts, pts.length)

/-! ## Control registry (`ControlService`) -/

/-- In-memory control state: the active ALLOW_LIST patch set loaded from
the durable registry, and the suppression cache `rhythm_hash → expiry`. -/
structure ControlState where
  patches : List String
  suppressions : List (String × Int)
deriving DecidableEq

/-- Dictionary lookup in the suppression cache. -/
def lookupSup : List (String × Int) → String → Option Int
  | [], _ => none
  | p :: t, h => if p.1 = h then some p.2 else lookupSup t h

/-- `del suppression_cache[h]`. -/
def eraseSup : List (String × Int) → String → List (String × Int)
  | [], _ => []
  | p :: t, h => if p.1 = h then eraseSup t h else p :: eraseSup t h

/-- `ControlService.is_suppressed_or_patched`: returns the verdict and the
updated state (an expired suppression entry for the queried hash is
lazily deleted). -/
def isSuppressedOrPatched (now : Int) (st : ControlState) (h : String) :
    Bool × ControlState :=
  if h ∈ st.patches then (true, st)
  else
    match lookupSup st.suppressions h with
    | some expiry =>
      if now < expiry then (true, st)
      else (false, ⟨st.patches, eraseSup st.suppressions h⟩)
    | none => (false, st)

/-- The pure silencing predicate at time `now`: an active patch, or a
suppression that has not expired. -/
def silencedNowB (now : Int) (st : ControlState) (h : String) : Bool :=
  if h ∈ st.patches then true
  else
    match lookupSup st.suppressions h with
    | some expiry => decide (now < expiry)
    | none => false

/-! ## Rhythm analyzer (`RhythmAnalysisService`) -/

def HISTORICAL_SAMPLE_SIZE : Nat := 10000
def NOVELTY_MIN_COUNT : Nat := 2
def FREQUENCY_MIN_COUNT : Nat := 3

/-- `_calculate_historical_stats`, normalized means only: for each
fingerprint in the sample, `mean = count × (window_sec / hist_duration)`
with `hist_duration = max(1, points[0].ts − points[-1].ts)`.  The float
arithmetic of the source is modelled exactly over `ℚ`.  The paired
standard deviation `max(1.5, sqrt(mean))` is a function of the mean; the
threshold comparison that consumes it is `freqBreachB` below. -/
def calcHistStats (points : List Payload) (windowSec : ℚ) :
    List (String × ℚ) :=
  if points.length < 2 then []
  else
    let newestTs := ((points.head?.map (·.ts))).getD 0
    let oldestTs := ((points.getLast?.map (·.ts))).getD 0
    let dur : ℚ := max 1 ((newestTs : ℚ) - (oldestTs : ℚ))
    let scaling := windowSec / dur
    let hashes := points.map (·.rhythm_hash)
    (counterKeys hashes).map fun h => (h, (hashes.count h : ℚ) * scaling)

def lookupStat : List (String × ℚ) → String → Option ℚ
  | [], _ => none
  | p :: t, h => if p.1 = h then some p.2 else lookupStat t h

/-- The specification's normalized baseline mean for a fingerprint:
`mean_h = c_h × (window_sec / hist_duration)` with
`hist_duration = max(1, newest.ts − oldest.ts)` (the sample is ordered
newest first, so `newest = points[0]`, `oldest = points[-1]`). -/
def meanQ (hist : List Payload) (windowSec : Nat) (h : String) : ℚ :=
  ((hist.map (·.rhythm_hash)).count h : ℚ) *
    ((windowSec : ℚ) / max 1 ((((hist.head?.map (·.ts))).getD 0 : ℚ) -
      (((hist.getLast?.map (·.ts))).getD 0 : ℚ)))

/-- The frequency test `r_count > mean + 2.5 * max(1.5, sqrt(mean))`,
decided exactly over `ℚ`: when `mean ≤ 9/4` the standard deviation floor
`1.5` is active; otherwise the comparison against `2.5·√mean` is decided
by squaring (both sides are positive).  `freqBreach_iff_real` below
proves this equal to the real-number formula. -/
def freqBreachB (c : Nat) (m : ℚ) : Bool :=
  if m ≤ 9 / 4 then decide (m + 15 / 4 < (c : ℚ))
  else decide (m < (c : ℚ)) && decide (25 / 4 * m < ((c : ℚ) - m) ^ 2)

/-- `by_hash[r_hash]`: the dict comprehension keeps the last point with a
given hash.  The default branch is unreachable (the loop only queries
hashes of `recent`); it returns a payload carrying the queried hash so
that the lookup's hash field is always the key. -/
def byHashLookup (recent : List Payload) (h : String) : Payload :=
  match (recent.filter (fun p => p.rhythm_hash == h)).getLast? with
  | some p => p
  | none =>
    { rhythm_hash := h, service := "", ts := 0, severity := "", body := ""
      full_log_json := .nested ⟨none⟩ }

def novContext (c : Nat) : String :=
  "New pattern seen " ++ toString c ++ " times."

/-- The frequency anomaly context string; the Python f-string interpolates
the threshold and stats with `%.1f` float formatting, which no claim
depends on and which is elided here. -/
def freqContext (c : Nat) : String :=
  "Count " ++ toString c ++ " breached the frequency threshold."

/-- The classification loop of `find_rhythm_anomalies` (source lines
85-103): iterate over the `Counter` items, consult the control registry
(threading its lazily-mutated state), and emit novelty / frequency
payloads in iteration order. -/
def rhythmLoop (now : Int) (stats : List (String × ℚ)) (recent : List Payload) :
    ControlState → List (String × Nat) → ControlState × List Payload × List Payload
  | st, [] => (st, [], [])
  | st, (h, c) :: rest =>
    let pr := isSuppressedOrPatched now st h
    if pr.1 then rhythmLoop now stats recent pr.2 rest
    else
      match lookupStat stats h with
      | none =>
        let out := rhythmLoop now stats recent pr.2 rest
        if NOVELTY_MIN_COUNT ≤ c then
          (out.1,
           { byHashLookup recent h with
               anomaly_type := some "novelty"
               anomaly_context := some (novContext c) } :: out.2.1,
           out.2.2)
        else out
      | some m =>
        let out := rhythmLoop now stats recent pr.2 rest
        if freqBreachB c m && decide (FREQUENCY_MIN_COUNT ≤ c) then
          (out.1, out.2.1,
           { byHashLookup recent h with
               anomaly_type := some "frequency"
               anomaly_context := some (freqContext c) } :: out.2.2)
        else out

/-- The outcome of one classification step for a `Counter` item, as a
`filterMap`-style function: what `rhythmLoop` appends to the novelty
list.  Used to characterize the loop (`rhythmLoop_char`): the lazy
suppression-cache cleanups never change any silencing verdict, so each
step's verdict can be expressed against the initial control state. -/
def novEmit (now : Int) (stats : List (String × ℚ)) (recent : List Payload)
    (st : ControlState) (it : String × Nat) : Option Payload :=
  if silencedNowB now st it.1 then none
  else
    match lookupStat stats it.1 with
    | none =>
      if NOVELTY_MIN_COUNT ≤ it.2 then
        some { byHashLookup recent it.1 with
                 anomaly_type := some "novelty"
                 anomaly_context := some (novContext it.2) }
      else none
    | some _ => none

/-- Companion to `novEmit` for the frequency list. -/
def freqEmit (now : Int) (stats : List (String × ℚ)) (recent : List Payload)
    (st : ControlState) (it : String × Nat) : Option Payload :=
  if silencedNowB now st it.1 then none
  else
    match lookupStat stats it.1 with
    | none => none
    | some m =>
      if freqBreachB it.2 m && decide (FREQUENCY_MIN_COUNT ≤ it.2) then
        some { byHashLookup recent it.1 with
                 anomaly_type := some "frequency"
                 anomaly_context := some (freqContext it.2) }
      else none

/-! ## Promotion (`PromotionService.promote_anomalies`) -/

structure PromotedEvent where
  text_for_embedding : String
  payload : EventPayload
deriving DecidableEq

/-- Group anomaly payloads by fingerprint, sort each group by `ts`
ascending (stably, like Python `sorted`), and build one event cluster per
group. -/
def promoteAnomalies (anomalies : List Payload) : List PromotedEvent :=
  (groupByKey (·.rhythm_hash) anomalies).map fun pr =>
    let sortedLogs := pr.2.insertionSort (fun a b => a.ts ≤ b.ts)
    let text := ((sortedLogs.head?.map (·.body))).getD ""
    { text_for_embedding := text
      payload :=
        { entity_type := "event_cluster"
          rhythm_hash := pr.1
          start_ts := ((sortedLogs.head?.map (·.ts))).getD 0
          end_ts := ((sortedLogs.getLast?.map (·.ts))).getD 0
          count := pr.2.length
          service := ((sortedLogs.head?.map (·.service))).getD "unknown"
          severity := ((sortedLogs.head?.map (·.severity))).getD "INFO"
          anomaly_type := ((sortedLogs.head?.bind (·.anomaly_type))).getD "unknown"
          anomaly_context := ((sortedLogs.head?.bind (·.anomaly_context))).getD ""
          body := text
          sample_logs := (sortedLogs.take 5).map (·.full_log_json) } }

/-- Result of one full `find_rhythm_anomalies` invocation: the returned
novelty / frequency lists, the control state after the lazy suppression
cleanups, and the event clusters handed to promotion. -/
structure AnalysisResult where
  novel : List Payload
  frequency : List Payload
  ctrl : ControlState
  promoted : List PromotedEvent
deriving DecidableEq

/-- `RhythmAnalysisService.find_rhythm_anomalies`, with its two storage
reads (`recent window` and `historical baseline`) supplied as inputs and
`now = int(time.time())` a parameter: empty recent window returns empty
and skips promotion; otherwise classify every distinct recent
fingerprint and promote `novel ++ frequency`. -/
def findRhythmAnomalies (now : Int) (windowSec : Nat) (st : ControlState)
    (recentPoints histPoints : List Payload) : AnalysisResult :=
  match recentPoints with
  | [] => ⟨[], [], st, []⟩
  | _ :: _ =>
    let stats := calcHistStats histPoints (windowSec : ℚ)
    let items := counterItems (recentPoints.map (·.rhythm_hash))
    let res := rhythmLoop now stats recentPoints st items
    ⟨res.2.1, res.2.2, res.1, promoteAnomalies (res.2.1 ++ res.2.2)⟩

/-! ## Vector-store gateway (`QdrantService`) -/

/-- Proleptic-Gregorian civil date from days since the Unix epoch (the
standard days-from-civil inverse used by every C/Python date library).
Returns `(year, month, day)`. -/
def civilFromDays (z0 : Int) : Int × Nat × Nat :=
  let z := z0 + 719468
  let era := Int.fdiv z 146097
  let doe := (z - era * 146097).toNat
  let yoe := (doe - doe / 1460 + doe / 36524 - doe / 146096) / 365
  let y := (yoe : Int) + era * 400
  let doy := doe - (365 * yoe + yoe / 4 - yoe / 100)
  let mp := (5 * doy + 2) / 153
  let d := doy - (153 * mp + 2) / 5 + 1
  let m := if mp < 10 then mp + 3 else mp - 9
  (if m ≤ 2 then y + 1 else y, m, d)

/-- Fixed-width decimal rendering (for `strftime` zero padding). -/
def decFixed (w n : Nat) : List Char :=
  match w with
  | 0 => []
  | k + 1 => decFixed k (n / 10) ++ [Char.ofNat (48 + n % 10)]

/-- `datetime.strftime('%Y_%m_%d')` of a civil date (years of interest are
positive, so `%Y` is the zero-padded 4-digit year). -/
def dateStr (y : Int) (m d : Nat) : String :=
  ⟨decFixed 4 y.toNat ++ '_' :: decFixed 2 m ++ '_' :: decFixed 2 d⟩

/-- `QdrantService._get_daily_collection_name`:
`f"{prefix}_{datetime.fromtimestamp(ts).strftime('%Y_%m_%d')}"`.
`datetime.fromtimestamp` uses the process's local timezone, modelled as a
fixed offset `tzOffset` in seconds added to the timestamp. -/
def getDailyCollectionName (tzOffset : Int) (pfx : String) (ts : Int) : String :=
  let c := civilFromDays (Int.fdiv (ts + tzOffset) 86400)
  pfx ++ "_" ++ dateStr c.1 c.2.1 c.2.2

/-- A Tier-2 point as upserted: named vectors and the event payload (the
external random uuid point id is not modelled). -/
structure Tier2Point where
  vectors : List (String × List ℚ)
  payload : EventPayload
deriving DecidableEq

/-- `QdrantService.ingest_to_tier2`: group events by daily collection of
their `start_ts`, embed each representative text with the Tier-2 dense
model (`embed2`, external), and build the points each carrying the single
named vector `"log_dense_vector"`.  Returns the per-collection upserts
and the reported count `len(events)`. -/
def ingestToTier2 (embed2 : String → List ℚ) (tzOffset : Int) (pfx : String)
    (events : List PromotedEvent) : List (String × List Tier2Point) × Nat :=
  let grouped := groupByKey
    (fun e => getDailyCollectionName tzOffset pfx e.payload.start_ts) events
  (grouped.map fun pr =>
    (pr.1, pr.2.map fun e =>
      ⟨[("log_dense_vector", embed2 e.text_for_embedding)], e.payload⟩),
   events.length)

/-- A scored point returned by a vector search. -/
structure ScoredPoint where
  id : String
  score : ℚ
  payload : EventPayload
deriving DecidableEq

/-- The per-partition outcomes of an `asyncio.gather(*,
return_exceptions=True)` fan-out: keep the successful results. -/
def okResults (rs : List (Except Unit α)) : List α :=
  rs.filterMap fun r =>
    match r with
    | .ok v => some v
    | .error _ => none

/-- Python `sorted(·, key=score, reverse=True)`: stable descending sort by
score. -/
def sortByScoreDesc (l : List ScoredPoint) : List ScoredPoint :=
  l.insertionSort (fun a b => b.score ≤ a.score)

/-- `QdrantService.federated_search`: fan out over the daily partitions
(each outcome possibly an exception, e.g. a missing partition), drop the
failures, merge and re-rank all hits by score descending. -/
def federatedSearch (results : List (Except Unit (List ScoredPoint))) :
    List ScoredPoint :=
  sortByScoreDesc (okResults results).flatten

/-! ## Forensic query layer (`ForensicAnalysisService`) -/

structure GroupHit where
  id : String
  score : ℚ
  payload : EventPayload
deriving DecidableEq

structure HashGroup where
  id : String
  hits : List GroupHit
deriving DecidableEq

structure GroupsResult where
  groups : List HashGroup
deriving DecidableEq

/-- Sort key `g.hits[0].score`; the service contract guarantees every
returned group a top hit, the empty case is unreachable. -/
def groupTopScore (g : HashGroup) : ℚ :=
  match g.hits with
  | [] => 0
  | hh :: _ => hh.score

/-- The list comprehension
`[g for g in groups if not control.is_suppressed_or_patched(g.id)]`,
threading the control state left to right. -/
def controlFilterGroups (now : Int) :
    ControlState → List HashGroup → List HashGroup × ControlState
  | st, [] => ([], st)
  | st, g :: t =>
    let pr := isSuppressedOrPatched now st g.id
    let out := controlFilterGroups now pr.2 t
    (if pr.1 then out.1 else g :: out.1, out.2)

structure ClusterOut where
  cluster_id : String
  incident_count : Nat
  top_hit_id : String
  top_hit_payload : EventPayload
deriving DecidableEq

/-- The response shaping of `find_tier2_clusters`
(`{cluster_id, incident_count, top_hit}`, skipping hit-less groups;
`payload.get('count', 1)` always finds `count` on an event-cluster
payload). -/
def clusterShape (g : HashGroup) : Option ClusterOut :=
  match g.hits with
  | [] => none
  | hh :: _ => some ⟨g.id, hh.payload.count, hh.id, hh.payload⟩

/-- `ForensicAnalysisService.find_tier2_clusters` from the gathered
per-partition `search_groups` outcomes on: drop failed partitions, merge
groups, sort by top-hit score descending, drop silenced cluster ids, and
shape the response (`payload.get('count', 1)` always finds `count` on an
event-cluster payload). -/
def findTier2Clusters (now : Int) (st : ControlState)
    (results : List (Except Unit GroupsResult)) :
    List ClusterOut × ControlState :=
  let groups := ((okResults results).map (·.groups)).flatten
  let sortedGroups :=
    groups.insertionSort (fun a b => groupTopScore b ≤ groupTopScore a)
  let filtered := controlFilterGroups now st sortedGroups
  (filtered.1.filterMap clusterShape, filtered.2)

structure TriageOut where
  id : String
  score : ℚ
  payload : EventPayload
deriving DecidableEq

/-- `ForensicAnalysisService.triage_similar_events` from the gathered
per-partition `recommend` outcomes: empty positives short-circuit;
otherwise merge the successful partitions, sort by score descending and
truncate to 50. -/
def triageSimilarEvents (positiveIds : List String)
    (results : List (Except Unit (List ScoredPoint))) : List TriageOut :=
  match positiveIds with
  | [] => []
  | _ :: _ =>
    ((sortByScoreDesc (okResults results).flatten).take 50).map fun p =>
      ⟨p.id, p.score, p.payload⟩

/-! ## Order instances for the stable sorts -/

instance : IsTotal ScoredPoint (fun a b => b.score ≤ a.score) :=
  ⟨fun a b => le_total b.score a.score⟩

instance : IsTrans ScoredPoint (fun a b => b.score ≤ a.score) :=
  ⟨fun _ _ _ hab hbc => le_trans hbc hab⟩

instance : IsTotal HashGroup (fun a b => groupTopScore b ≤ groupTopScore a) :=
  ⟨fun a b => le_total (groupTopScore b) (groupTopScore a)⟩

instance : IsTrans HashGroup (fun a b => groupTopScore b ≤ groupTopScore a) :=
  ⟨fun _ _ _ hab hbc => le_trans hbc hab⟩

instance : IsTotal Payload (fun a b => a.ts ≤ b.ts) :=
  ⟨fun a b => le_total a.ts b.ts⟩

instance : IsTrans Payload (fun a b => a.ts ≤ b.ts) :=
  ⟨fun _ _ _ hab hbc => le_trans hab hbc⟩

/-! ## Concrete inputs for the scenario theorems and witnesses

The external embedding models are instantiated with constant stubs for
concrete runs (any function gives the same fingerprint equalities, since
equal templates are embedded to equal strings). -/

def embed0 : String → String := fun _ => "emb"

def embedVec0 : String → List ℚ := fun _ => [1]

/-- An S1 record: flat shape, given body, service `svc-a`, severity INFO. -/
def s1Rec (body : String) (ts : Int) : RawLog :=
  .flat ⟨ts * 1000000000, "INFO", body, [⟨"service.name", "svc-a"⟩]⟩

/-- The three S1 records; their timestamps fall on 2025-03-14 UTC. -/
def s1Batch : List RawLog :=
  [s1Rec "user 42 ok" 1741910400, s1Rec "user 9999 ok" 1741910401,
   s1Rec "user 1 ok" 1741910402]

def s1Points : List Tier1Prepared :=
  match ingestLogBatch embed0 s1Batch with
  | .ok pr => pr.1
  | .error _ => []

/-- The S1 analysis run: window 60 s, empty historical sample, empty
control registry. -/
def s1Res : AnalysisResult :=
  findRhythmAnomalies 1741910460 60 ⟨[], []⟩ (s1Points.map (·.payload)) []

/-- The S3 promotion of the S1 run into Tier-2 (UTC timezone). -/
def s1Tier2 : List (String × List Tier2Point) × Nat :=
  ingestToTier2 embedVec0 0 "via_forensic_index" s1Res.promoted

/-- C2 counterexample records: equal body and attribute keys, different
service values and severities. -/
def c2recA : OTelLogRecord :=
  ⟨0, "INFO", "connection established", [⟨"service.name", "svc-a"⟩]⟩

def c2recB : OTelLogRecord :=
  ⟨0, "ERROR", "connection established", [⟨"service.name", "svc-b"⟩]⟩

/-- C2 counterexample record: same body, service and severity as `c2recA`
but one extra attribute key. -/
def c2recC : OTelLogRecord :=
  ⟨0, "INFO", "connection established",
   [⟨"service.name", "svc-a"⟩, ⟨"request.id", "7"⟩]⟩

/-- A concrete promoted event for the C6/C7 witnesses. -/
def sampleEventPayload : EventPayload :=
  ⟨"event_cluster", "F", 1741910400, 1741910450, 3, "svc-a", "INFO",
   "novelty", "ctx", "user * ok", []⟩

def sampleEvent : PromotedEvent := ⟨"user * ok", sampleEventPayload⟩

def sampleTier2 : List (String × List Tier2Point) × Nat :=
  ingestToTier2 embedVec0 0 "via_forensic_index" [sampleEvent]

/-- C8 counterexample batch: one well-formed flat record followed by a
nested record with no `resourceLogs` key. -/
def flatGood : OTelLogRecord := ⟨0, "INFO", "ok", []⟩

def badNested : RawLog := .nested ⟨none⟩

/-- Concrete Tier-1 payloads with literal fingerprints. -/
def payF (ts : Int) : Payload :=
  ⟨"F", "svc-a", ts, "INFO", "body F", .nested ⟨none⟩, none, none⟩

def payG (ts : Int) : Payload :=
  ⟨"G", "svc-a", ts, "INFO", "body G", .nested ⟨none⟩, none, none⟩

/-- C1 witness control state: "F" is an active patch, "G" a suppression
expiring at 100. -/
def ctrlW : ControlState := ⟨["F"], [("G", 100)]⟩

/-- C1 witness fan-out outcomes: one partition returning groups "F" and
"H", one failed partition. -/
def groupsW : List (Except Unit GroupsResult) :=
  [.ok ⟨[⟨"F", [⟨"id1", 1, sampleEventPayload⟩]⟩,
         ⟨"H", [⟨"id2", 2, sampleEventPayload⟩]⟩]⟩,
   .error ()]

/-- S2 historical sample: fingerprint "G" exactly 12 times, newest first,
spanning exactly 3600 seconds. -/
def histS2 : List Payload :=
  [payG 3600, payG 3300, payG 3000, payG 2700, payG 2400, payG 2100,
   payG 1800, payG 1500, payG 1200, payG 900, payG 600, payG 0]

/-- An S2 recent window with `n` occurrences of "G". -/
def recentS2 (n : Nat) : List Payload :=
  (List.range n).map fun i => payG (4000 + i)

/-! ## Token shapes (for the template-invariance analysis of `_get_template`)

The three `re.sub` patterns only fire on whole, word-boundary-delimited
tokens.  The shapes below describe exactly the strings matched by one
pattern when the string stands alone between word boundaries (for
example as one space-separated word of the body). -/

/-- A run of exactly `n` lowercase hex digits. -/
def HexSeg (n : Nat) (l : List Char) : Prop :=
  l.length = n ∧ ∀ c ∈ l, hexLowerCh c = true

/-- A whole word of the canonical lowercase UUID form
`[0-9a-f]{8}-[0-9a-f]{4}-[0-9a-f]{4}-[0-9a-f]{4}-[0-9a-f]{12}`. -/
def UuidShape (w : String) : Prop :=
  ∃ h1 h2 h3 h4 h5 : List Char,
    w.data = h1 ++ '-' :: (h2 ++ '-' :: (h3 ++ '-' :: (h4 ++ '-' :: h5))) ∧
    HexSeg 8 h1 ∧ HexSeg 4 h2 ∧ HexSeg 4 h3 ∧ HexSeg 4 h4 ∧ HexSeg 12 h5

/-- One to three decimal digits (`\d{1,3}`). -/
def OctetShape (l : List Char) : Prop :=
  l ≠ [] ∧ l.length ≤ 3 ∧ ∀ c ∈ l, isDigitCh c = true

/-- A whole word of the dotted-quad form `\d{1,3}\.\d{1,3}\.\d{1,3}\.\d{1,3}`. -/
def Ipv4Shape (w : String) : Prop :=
  ∃ d1 d2 d3 d4 : List Char,
    w.data = d1 ++ '.' :: (d2 ++ '.' :: (d3 ++ '.' :: d4)) ∧
    OctetShape d1 ∧ OctetShape d2 ∧ OctetShape d3 ∧ OctetShape d4

/-- A whole word that is a nonempty run of decimal digits (`\d+`). -/
def DigitsShape (w : String) : Prop :=
  w.data ≠ [] ∧ ∀ c ∈ w.data, isDigitCh c = true

/-- Two words that the template map cannot distinguish: equal, or both
whole-token UUIDs, both whole-token IPv4 quads, or both whole-token digit
runs. -/
def wordRel (w1 w2 : String) : Prop :=
  w1 = w2 ∨ (UuidShape w1 ∧ UuidShape w2) ∨ (Ipv4Shape w1 ∧ Ipv4Shape w2) ∨
    (DigitsShape w1 ∧ DigitsShape w2)

/-- A body made of space-separated words. -/
def joinWords : List String → String
  | [] => ""
  | [w] => w
  | w :: v :: rest => w ++ " " ++ joinWords (v :: rest)

/-- Two records whose bodies differ only in one digit run that is part of
a larger word (`v1` vs `v2`): the `\b\d+\b` pattern does not fire inside a
word, so the templates and fingerprints differ. -/
def c5recA : OTelLogRecord :=
  ⟨1, "INFO", "deploy v1 done", [⟨"service.name", "svc-a"⟩]⟩

def c5recB : OTelLogRecord :=
  ⟨1, "INFO", "deploy v2 done", [⟨"service.name", "svc-a"⟩]⟩

/-- Records whose bodies differ only in a whole-word digit run. -/
def c5recC : OTelLogRecord :=
  ⟨1, "INFO", joinWords ["user", "42", "ok"], [⟨"service.name", "svc-a"⟩]⟩

def c5recD : OTelLogRecord :=
  ⟨2, "INFO", joinWords ["user", "9999", "ok"], [⟨"service.name", "svc-a"⟩]⟩

/-! # Theorems

First general-purpose lemmas about the helpers, then the claims. -/

theorem getLastSome_mem {α : Type} {l : List α} {a : α}
    (h : l.getLast? = some a) : a ∈ l := by
  obtain ⟨hne, rfl⟩ := List.mem_getLast?_eq_getLast (by simpa using h)
  exact List.getLast_mem hne

/-- The `by_hash` lookup always returns a payload carrying the queried
fingerprint. -/
theorem byHashLookup_hash (recent : List Payload) (h : String) :
    (byHashLookup recent h).rhythm_hash = h := by
  unfold byHashLookup
  cases hL : (recent.filter (fun p => p.rhythm_hash == h)).getLast? with
  | none => rfl
  | some p =>
    have hp := getLastSome_mem hL
    exact eq_of_beq (List.mem_filter.mp hp).2

/-- Every group produced by `groupByKey` is exactly the sublist of
elements with the group's key, and the key occurs in the list. -/
theorem groupByKeyGo_spec {α : Type} (key : α → String) :
    ∀ (fuel : Nat) (l : List α), l.length ≤ fuel →
      ∀ k g, (k, g) ∈ groupByKeyGo key fuel l →
        (∃ y ∈ l, key y = k) ∧ g = l.filter (fun y => key y == k) := by
  intro fuel
  induction fuel with
  | zero =>
    intro l hl k g hm
    simp [groupByKeyGo] at hm
  | succ fuel ih =>
    intro l hl k g hm
    match l with
    | [] => simp [groupByKeyGo] at hm
    | x :: t =>
      rw [groupByKeyGo] at hm
      rcases List.mem_cons.mp hm with hhead | htail
      · rw [Prod.mk.injEq] at hhead
        obtain ⟨hk, hg⟩ := hhead
        subst hk
        refine ⟨⟨x, List.mem_cons_self .., rfl⟩, ?_⟩
        rw [hg, List.filter_cons]
        simp
      · have hlen : (t.filter fun y => !(key y == key x)).length ≤ fuel :=
          le_trans (List.length_filter_le _ _)
            (Nat.le_of_succ_le_succ (by simpa using hl))
        obtain ⟨⟨y, hy, hyk⟩, hg⟩ := ih _ hlen k g htail
        obtain ⟨hyt, hynx⟩ := List.mem_filter.mp hy
        have hkx : k ≠ key x := by
          intro he
          rw [← hyk] at he
          rw [he] at hynx
          simp at hynx
        refine ⟨⟨y, List.mem_cons_of_mem _ hyt, hyk⟩, ?_⟩
        rw [hg, List.filter_cons]
        have hxk : (key x == k) = false := by
          rw [beq_eq_false_iff_ne]
          exact fun he => hkx he.symm
        rw [hxk]
        simp only [Bool.false_eq_true, if_false, List.filter_filter]
        apply List.filter_congr
        intro z hz
        cases hzk : (key z == k) with
        | true =>
          have : (key z == key x) = false := by
            rw [beq_eq_false_iff_ne, eq_of_beq hzk]
            exact hkx
          rw [this]
          rfl
        | false => rfl

theorem groupByKey_spec {α : Type} (key : α → String) (l : List α)
    {k : String} {g : List α} (hm : (k, g) ∈ groupByKey key l) :
    (∃ y ∈ l, key y = k) ∧ g = l.filter (fun y => key y == k) :=
  groupByKeyGo_spec key l.length l le_rfl k g hm

theorem counterKeysGo_mem :
    ∀ (fuel : Nat) (l : List String), l.length ≤ fuel →
      ∀ h, h ∈ counterKeysGo fuel l ↔ h ∈ l := by
  intro fuel
  induction fuel with
  | zero =>
    intro l hl h
    have : l = [] := List.length_eq_zero.mp (Nat.le_zero.mp hl)
    subst this
    simp [counterKeysGo]
  | succ fuel ih =>
    intro l hl h
    match l with
    | [] => simp [counterKeysGo]
    | x :: t =>
      rw [counterKeysGo]
      have hlen : (t.filter fun y => !(y == x)).length ≤ fuel :=
        le_trans (List.length_filter_le _ _)
          (Nat.le_of_succ_le_succ (by simpa using hl))
      constructor
      · intro hm
        rcases List.mem_cons.mp hm with rfl | hm
        · exact List.mem_cons_self ..
        · exact List.mem_cons_of_mem _
            (List.mem_filter.mp ((ih _ hlen h).mp hm)).1
      · intro hm
        rcases List.mem_cons.mp hm with rfl | hm
        · exact List.mem_cons_self ..
        · by_cases hx : h = x
          · subst hx; exact List.mem_cons_self ..
          · refine List.mem_cons_of_mem _ ((ih _ hlen h).mpr ?_)
            rw [List.mem_filter]
            exact ⟨hm, by simpa using hx⟩

theorem counterKeys_mem (l : List String) (h : String) :
    h ∈ counterKeys l ↔ h ∈ l :=
  counterKeysGo_mem l.length l le_rfl h

/-- `Counter(l).items()` membership: an entry per distinct element, with
its total count. -/
theorem counterItems_mem (l : List String) (h : String) (c : Nat) :
    (h, c) ∈ counterItems l ↔ h ∈ l ∧ c = l.count h := by
  unfold counterItems
  rw [List.mem_map]
  constructor
  · rintro ⟨a, ha, he⟩
    rw [Prod.mk.injEq] at he
    obtain ⟨rfl, rfl⟩ := he
    exact ⟨(counterKeys_mem l a).mp ha, rfl⟩
  · rintro ⟨hm, rfl⟩
    exact ⟨h, (counterKeys_mem l h).mpr hm, rfl⟩

/-! ## Sanity checks of the embedded primitives -/

/-- FIPS 180 test vector for "abc". -/
theorem sha256Hex_abc :
    sha256Hex "abc" =
      "ba7816bf8f01cfea414140de5dae2223b00361a396177a9cb410ff61f20015ad" := by
  decide

/-- Templating behaviour on the S1 bodies and on UUID / IPv4 tokens. -/
theorem getTemplate_examples :
    getTemplate "user 42 ok" = "user * ok" ∧
      getTemplate "user 9999 ok" = "user * ok" ∧
      getTemplate "user 1 ok" = "user * ok" ∧
      getTemplate "conn 123e4567-e89b-42d3-a456-426614174000 from 10.0.0.1" =
        "conn * from *" := by
  decide

/-- `2025-03-14` daily partition name (S3). -/
theorem dailyCollectionName_s3_example :
    getDailyCollectionName 0 "via_forensic_index" 1741910400 =
      "via_forensic_index_2025_03_14" := by
  decide

/-! ## C6 — daily partition consistency -/

/-- C6: every EventCluster of every promotion batch is written to the
Tier-2 collection `<tier2_prefix>_YYYY_MM_DD` computed from the local
date of its `start_ts`: `partition_of(E) = daily_name(date_local(E.start_ts))`. -/
theorem claim_C6 :
    ∀ (embed2 : String → List ℚ) (tzOffset : Int) (pfx : String)
      (events : List PromotedEvent) (name : String) (pts : List Tier2Point)
      (pt : Tier2Point),
      (name, pts) ∈ (ingestToTier2 embed2 tzOffset pfx events).1 →
      pt ∈ pts →
      name = getDailyCollectionName tzOffset pfx pt.payload.start_ts := by
  intro embed2 tz pfx events name pts pt hm hpt
  unfold ingestToTier2 at hm
  rw [List.mem_map] at hm
  obtain ⟨pr, hpr, he⟩ := hm
  rw [Prod.mk.injEq] at he
  obtain ⟨hk, hpts⟩ := he
  subst hk
  subst hpts
  rw [List.mem_map] at hpt
  obtain ⟨e, he2, rfl⟩ := hpt
  have hspec := groupByKey_spec _ events hpr
  rw [hspec.2] at he2
  exact (eq_of_beq (List.mem_filter.mp he2).2).symm

/-- C6 witness: the sample event lands in the `2025_03_14` partition. -/
theorem witness_C6 :
    "via_forensic_index_2025_03_14" =
      getDailyCollectionName 0 "via_forensic_index" sampleEventPayload.start_ts :=
  claim_C6 embedVec0 0 "via_forensic_index" [sampleEvent]
    "via_forensic_index_2025_03_14"
    [⟨[("log_dense_vector", [1])], sampleEventPayload⟩]
    ⟨[("log_dense_vector", [1])], sampleEventPayload⟩
    (by decide) (by decide)

/-! ## C7 — named vectors of a Tier-2 point (corrected)

The code attaches only `"log_dense_vector"`; no `"bm25_vector"` sparse
vector is built or upserted (`ingest_to_tier2` line 131, and the daily
collection is created without a sparse vector config). -/

/-- C7 counterexample: a concretely promoted event-cluster point carries
exactly the single named vector `"log_dense_vector"`, and no
`"bm25_vector"` — the claim's second named vector does not exist. -/
theorem counterexample_C7 :
    (sampleTier2.1.map fun pr => pr.2.map fun pt => pt.vectors.map (·.1)) =
      [[["log_dense_vector"]]] ∧
      ¬ ∃ pr ∈ sampleTier2.1, ∃ pt ∈ pr.2,
          "bm25_vector" ∈ pt.vectors.map (·.1) := by
  decide

/-- C7 (amended): every upserted Tier-2 EventCluster point carries exactly
one named vector, `"log_dense_vector"` (the dense embedding of the
representative text); in particular no `"bm25_vector"` is attached. -/
theorem claim_C7 :
    ∀ (embed2 : String → List ℚ) (tzOffset : Int) (pfx : String)
      (events : List PromotedEvent) (name : String) (pts : List Tier2Point)
      (pt : Tier2Point),
      (name, pts) ∈ (ingestToTier2 embed2 tzOffset pfx events).1 →
      pt ∈ pts →
      pt.vectors.map (·.1) = ["log_dense_vector"] ∧
        "bm25_vector" ∉ pt.vectors.map (·.1) := by
  intro embed2 tz pfx events name pts pt hm hpt
  unfold ingestToTier2 at hm
  rw [List.mem_map] at hm
  obtain ⟨pr, hpr, he⟩ := hm
  rw [Prod.mk.injEq] at he
  obtain ⟨hk, hpts⟩ := he
  subst hpts
  rw [List.mem_map] at hpt
  obtain ⟨e, he2, rfl⟩ := hpt
  refine ⟨rfl, ?_⟩
  show "bm25_vector" ∉ ["log_dense_vector"]
  decide

/-- C7 witness at the sample event. -/
theorem witness_C7 :
    (⟨[("log_dense_vector", [1])], sampleEventPayload⟩ : Tier2Point).vectors.map
        (·.1) = ["log_dense_vector"] ∧
      "bm25_vector" ∉
        (⟨[("log_dense_vector", [1])], sampleEventPayload⟩ : Tier2Point).vectors.map
          (·.1) :=
  claim_C7 embedVec0 0 "via_forensic_index" [sampleEvent]
    "via_forensic_index_2025_03_14"
    [⟨[("log_dense_vector", [1])], sampleEventPayload⟩]
    ⟨[("log_dense_vector", [1])], sampleEventPayload⟩
    (by decide) (by decide)

/-! ## C8 — malformed records (corrected)

`ingest_log_batch` has no per-record error handling: a nested record with
missing structure raises out of the loop and the whole batch fails; no
record is "dropped with a warning".  (At the HTTP layer, request
validation rejects the entire request.)  Flat-shaped batches always
succeed with the full count. -/

theorem ingestGo_flat_ok (embedStr : String → String) :
    ∀ rs : List OTelLogRecord,
      ∃ pts, ingestLogBatchGo embedStr (rs.map .flat) = .ok pts ∧
        pts.length = rs.length := by
  intro rs
  induction rs with
  | nil => exact ⟨[], rfl, rfl⟩
  | cons r rs ih =>
    obtain ⟨pts, hgo, hlen⟩ := ih
    obtain ⟨p, hp⟩ : ∃ p, parseRaw (RawLog.flat r) = .ok p := ⟨_, rfl⟩
    refine ⟨buildPoint embedStr p :: pts, ?_, by simpa using hlen⟩
    show (match parseRaw (RawLog.flat r) with
      | .error e => Except.error e
      | .ok q => (ingestLogBatchGo embedStr (rs.map .flat)).map
          (buildPoint embedStr q :: ·)) =
        Except.ok (buildPoint embedStr p :: pts)
    rw [hp, hgo]
    rfl

theorem ingestGo_malformed_error (embedStr : String → String) :
    ∀ logs : List RawLog, (∃ raw ∈ logs, parseRaw raw = .error ()) →
      ingestLogBatchGo embedStr logs = .error () := by
  intro logs
  induction logs with
  | nil => rintro ⟨raw, hm, _⟩; simp at hm
  | cons raw t ih =>
    rintro ⟨bad, hbad, herr⟩
    rcases List.mem_cons.mp hbad with rfl | hbad
    · show (match parseRaw bad with
        | .error e => .error e
        | .ok p => (ingestLogBatchGo embedStr t).map (buildPoint embedStr p :: ·)) =
          Except.error ()
      rw [herr]
    · cases hp : parseRaw raw with
      | error e =>
        show (match parseRaw raw with
          | .error e => .error e
          | .ok p => (ingestLogBatchGo embedStr t).map (buildPoint embedStr p :: ·)) =
            Except.error ()
        rw [hp]
      | ok p =>
        have ht := ih ⟨bad, hbad, herr⟩
        show (match parseRaw raw with
          | .error e => .error e
          | .ok p => (ingestLogBatchGo embedStr t).map (buildPoint embedStr p :: ·)) =
            Except.error ()
        rw [hp, ht]
        rfl

/-- C8 (amended): there is no per-record drop-with-warning.  A batch of
well-formed (flat) records is fully fingerprinted and upserted and the
call returns the count of all points; but one malformed nested record
(missing structure) raises and fails the whole `ingest_log_batch` call —
request-level validation, not per-record dropping, guards the endpoint. -/
theorem claim_C8 :
    (∀ (embedStr : String → String) (rs : List OTelLogRecord),
       ∃ pts, ingestLogBatch embedStr (rs.map .flat) = .ok (pts, rs.length)) ∧
    (∀ (embedStr : String → String) (logs : List RawLog),
       (∃ raw ∈ logs, parseRaw raw = .error ()) →
         ingestLogBatch embedStr logs = .error ()) := by
  constructor
  · intro embedStr rs
    obtain ⟨pts, hgo, hlen⟩ := ingestGo_flat_ok embedStr rs
    refine ⟨pts, ?_⟩
    unfold ingestLogBatch
    rw [hgo]
    show Except.ok (pts, pts.length) = Except.ok (pts, rs.length)
    rw [hlen]
  · intro embedStr logs hbad
    unfold ingestLogBatch
    rw [ingestGo_malformed_error embedStr logs hbad]
    rfl

/-- C8 counterexample: a batch holding one well-formed flat record and one
malformed nested record fails as a whole (`Except.error`), instead of
dropping the malformed record and ingesting the rest with count 1 as the
claim asserts. -/
theorem counterexample_C8 :
    ingestLogBatch embed0 [RawLog.flat flatGood, badNested] = .error () ∧
      ∀ pr, ingestLogBatch embed0 [RawLog.flat flatGood, badNested] ≠ .ok pr := by
  refine ⟨rfl, fun pr h => ?_⟩
  rw [show ingestLogBatch embed0 [RawLog.flat flatGood, badNested] =
        .error () from rfl] at h
  exact Except.noConfusion h

/-- C8 witness: a single malformed nested record fails its batch. -/
theorem witness_C8 :
    ingestLogBatch embed0 [badNested] = .error () :=
  claim_C8.2 embed0 [badNested] ⟨badNested, by decide, rfl⟩

/-! ## C2 — fingerprint composition (corrected)

The middle component of the fingerprint is a digest of the JSON dump of
the sorted attribute *keys* (`_get_rhythm_hash` lines 36-37), not of
`service + ":" + severity`; the severity is not read at all, the service
name only as an attribute value, which the structural hash ignores. -/

/-- C2 counterexample: `c2recA` and `c2recB` differ only in service value
and severity and get the *same* fingerprint (the claim requires the
middle component to change); `c2recC` has the same template, service and
severity as `c2recA` yet a *different* fingerprint, because it carries
one extra attribute key (the claim requires equality). -/
theorem counterexample_C2 :
    getRhythmHash embed0 c2recA = getRhythmHash embed0 c2recB ∧
      getRhythmHash embed0 c2recA ≠ getRhythmHash embed0 c2recC := by
  decide

/-- C2 (amended): the fingerprint is
`H(template) : H(json.dumps(sorted attribute keys)) : H(str(embed(template)))`
(16 lowercase hex chars each), so it depends only on the template of the
body, the list of attribute keys, and the embedding model: two records
with equal body template and equal attribute keys have equal
fingerprints — changing only the service attribute's value or the
severity changes nothing. -/
theorem claim_C2 :
    ∀ (embedStr : String → String) (r1 r2 : OTelLogRecord),
      getTemplate r1.Body = getTemplate r2.Body →
      r1.Attributes.map (·.key) = r2.Attributes.map (·.key) →
      getRhythmHash embedStr r1 = getRhythmHash embedStr r2 := by
  intro embedStr r1 r2 ht hk
  unfold getRhythmHash
  rw [ht, hk]

/-- C2 witness: records with different timestamps, severities and service
values but equal templates and attribute keys share a fingerprint. -/
theorem witness_C2 :
    getRhythmHash embed0 c2recA = getRhythmHash embed0
      ⟨5, "WARN", "connection established", [⟨"service.name", "svc-zz"⟩]⟩ :=
  claim_C2 embed0 c2recA
    ⟨5, "WARN", "connection established", [⟨"service.name", "svc-zz"⟩]⟩
    rfl rfl

/-! ## C9 — federated fan-out error handling -/

theorem controlFilter_empty (now : Int) :
    ∀ l, controlFilterGroups now ⟨[], []⟩ l = (l, ⟨[], []⟩) := by
  intro l
  induction l with
  | nil => rfl
  | cons g t ih =>
    show ((if (isSuppressedOrPatched now ⟨[], []⟩ g.id).1 then
        (controlFilterGroups now (isSuppressedOrPatched now ⟨[], []⟩ g.id).2 t).1
      else g :: (controlFilterGroups now (isSuppressedOrPatched now ⟨[], []⟩ g.id).2 t).1),
      (controlFilterGroups now (isSuppressedOrPatched now ⟨[], []⟩ g.id).2 t).2) = _
    have hq : isSuppressedOrPatched now ⟨[], []⟩ g.id = (false, ⟨[], []⟩) := rfl
    rw [hq, ih]
    simp

/-- C9: every federated Tier-2 read swallows per-partition errors
(including missing partitions): the call always produces a result built
from exactly the partitions that responded, merged and sorted by score
descending.  `federated_search` returns the score-descending sort of the
successful partitions' hits; `find_tier2_clusters` (with an empty control
registry, so that the C1 gate does not remove anything) returns exactly
the shaped, score-descending-sorted merge of the successful partitions'
groups; `triage_similar_events` returns the top 50 of the
score-descending merge of the successful partitions' hits. -/
theorem claim_C9 :
    ∀ (rs2 : List (Except Unit (List ScoredPoint))) (now : Int)
      (results : List (Except Unit GroupsResult)) (pos : List String),
      pos ≠ [] →
      ((federatedSearch rs2).Sorted (fun a b => b.score ≤ a.score) ∧
       (federatedSearch rs2).Perm (okResults rs2).flatten ∧
       ((findTier2Clusters now ⟨[], []⟩ results).1 =
          ((((okResults results).map (·.groups)).flatten).insertionSort
            (fun a b => groupTopScore b ≤ groupTopScore a)).filterMap clusterShape ∧
        ((((okResults results).map (·.groups)).flatten).insertionSort
          (fun a b => groupTopScore b ≤ groupTopScore a)).Sorted
            (fun a b => groupTopScore b ≤ groupTopScore a) ∧
        ((((okResults results).map (·.groups)).flatten).insertionSort
          (fun a b => groupTopScore b ≤ groupTopScore a)).Perm
            (((okResults results).map (·.groups)).flatten)) ∧
       (triageSimilarEvents pos rs2 =
          ((federatedSearch rs2).take 50).map (fun p => ⟨p.id, p.score, p.payload⟩) ∧
        (triageSimilarEvents pos rs2).Pairwise (fun a b => b.score ≤ a.score))) := by
  intro rs2 now results pos hpos
  refine ⟨List.sorted_insertionSort _ _, List.perm_insertionSort _ _,
    ⟨?_, List.sorted_insertionSort _ _, List.perm_insertionSort _ _⟩, ?_, ?_⟩
  · unfold findTier2Clusters
    dsimp only
    rw [controlFilter_empty]
  · match pos with
    | _ :: _ => rfl
  · match pos with
    | _ :: _ =>
      show (((sortByScoreDesc (okResults rs2).flatten).take 50).map fun p =>
        (⟨p.id, p.score, p.payload⟩ : TriageOut)).Pairwise _
      rw [List.pairwise_map]
      exact (List.sorted_insertionSort _ _).sublist (List.take_sublist _ _)

/-! ## Control-state lemmas

The lazy cleanup in `is_suppressed_or_patched` only ever deletes already
expired suppression entries, so it never changes any silencing verdict
within an invocation. -/

theorem lookupSup_erase_self (s : List (String × Int)) (k : String) :
    lookupSup (eraseSup s k) k = none := by
  induction s with
  | nil => rfl
  | cons p t ih =>
    unfold eraseSup
    by_cases hpk : p.1 = k
    · rw [if_pos hpk]; exact ih
    · rw [if_neg hpk]
      unfold lookupSup
      rw [if_neg hpk]
      exact ih

theorem lookupSup_erase_ne {s : List (String × Int)} {h k : String}
    (hne : h ≠ k) : lookupSup (eraseSup s k) h = lookupSup s h := by
  induction s with
  | nil => rfl
  | cons p t ih =>
    unfold eraseSup
    by_cases hpk : p.1 = k
    · rw [if_pos hpk]
      have hph : p.1 ≠ h := by rw [hpk]; exact fun e => hne e.symm
      conv_rhs => rw [lookupSup]
      rw [if_neg hph]
      exact ih
    · rw [if_neg hpk]
      show lookupSup _ _ = lookupSup (p :: t) h
      unfold lookupSup
      by_cases hph : p.1 = h
      · rw [if_pos hph, if_pos hph]
      · rw [if_neg hph, if_neg hph]
        exact ih

/-- The verdict returned by `is_suppressed_or_patched` is the pure
silencing predicate. -/
theorem isSuppressedOrPatched_fst (now : Int) (st : ControlState) (h : String) :
    (isSuppressedOrPatched now st h).1 = silencedNowB now st h := by
  unfold isSuppressedOrPatched silencedNowB
  by_cases hp : h ∈ st.patches
  · rw [if_pos hp, if_pos hp]
  · rw [if_neg hp, if_neg hp]
    cases hl : lookupSup st.suppressions h with
    | none => rfl
    | some expiry =>
      by_cases he : now < expiry
      · simp [he]
      · simp [he]

/-- The state update of `is_suppressed_or_patched` preserves every
silencing verdict. -/
theorem silenced_stable (now : Int) (st : ControlState) (h k : String) :
    silencedNowB now (isSuppressedOrPatched now st k).2 h =
      silencedNowB now st h := by
  unfold isSuppressedOrPatched
  by_cases hp : k ∈ st.patches
  · rw [if_pos hp]
  · rw [if_neg hp]
    cases hl : lookupSup st.suppressions k with
    | none => rfl
    | some expiry =>
      dsimp only
      by_cases he : now < expiry
      · rw [if_pos he]
      · rw [if_neg he]
        unfold silencedNowB
        by_cases hk : h = k
        · subst hk
          show (if h ∈ st.patches then true else
              match lookupSup (eraseSup st.suppressions h) h with
              | some e => decide (now < e)
              | none => false) = _
          rw [lookupSup_erase_self, hl]
          by_cases hph : h ∈ st.patches
          · rw [if_pos hph, if_pos hph]
          · rw [if_neg hph, if_neg hph]
            simp [he]
        · show (if h ∈ st.patches then true else
              match lookupSup (eraseSup st.suppressions k) h with
              | some e => decide (now < e)
              | none => false) = _
          rw [lookupSup_erase_ne hk]

/-- `novEmit`/`freqEmit` do not depend on the lazily-updated part of the
control state. -/
theorem novEmit_stable (now : Int) (stats : List (String × ℚ))
    (recent : List Payload) (st : ControlState) (k : String) :
    novEmit now stats recent (isSuppressedOrPatched now st k).2 =
      novEmit now stats recent st := by
  funext it
  unfold novEmit
  rw [silenced_stable]

theorem freqEmit_stable (now : Int) (stats : List (String × ℚ))
    (recent : List Payload) (st : ControlState) (k : String) :
    freqEmit now stats recent (isSuppressedOrPatched now st k).2 =
      freqEmit now stats recent st := by
  funext it
  unfold freqEmit
  rw [silenced_stable]

/-- Characterization of the classification loop: the emitted lists are
`filterMap`s of the `Counter` items through the step functions, with all
silencing verdicts taken against the entry control state. -/
theorem rhythmLoop_char (now : Int) (stats : List (String × ℚ))
    (recent : List Payload) :
    ∀ (items : List (String × Nat)) (st : ControlState),
      (rhythmLoop now stats recent st items).2.1 =
          items.filterMap (novEmit now stats recent st) ∧
        (rhythmLoop now stats recent st items).2.2 =
          items.filterMap (freqEmit now stats recent st) := by
  intro items
  induction items with
  | nil => intro st; exact ⟨rfl, rfl⟩
  | cons it rest ih =>
    intro st
    obtain ⟨k, c⟩ := it
    obtain ⟨ihn, ihf⟩ := ih (isSuppressedOrPatched now st k).2
    rw [rhythmLoop]
    rw [List.filterMap_cons, List.filterMap_cons]
    by_cases hsil : silencedNowB now st k = true
    · have h1 : (isSuppressedOrPatched now st k).1 = true := by
        rw [isSuppressedOrPatched_fst]; exact hsil
      rw [h1]
      simp only [if_true]
      have hn : novEmit now stats recent st (k, c) = none := by
        unfold novEmit; rw [hsil]; rfl
      have hf : freqEmit now stats recent st (k, c) = none := by
        unfold freqEmit; rw [hsil]; rfl
      rw [hn, hf]
      rw [ihn, ihf, novEmit_stable, freqEmit_stable]
      exact ⟨rfl, rfl⟩
    · have hsil' : silencedNowB now st k = false := by
        cases hx : silencedNowB now st k with
        | true => exact absurd hx hsil
        | false => rfl
      have h1 : (isSuppressedOrPatched now st k).1 = false := by
        rw [isSuppressedOrPatched_fst]; exact hsil'
      rw [h1]
      simp only [Bool.false_eq_true, if_false]
      have hn0 : novEmit now stats recent st (k, c) =
          (if silencedNowB now st k then none else
            match lookupStat stats k with
            | none =>
              if NOVELTY_MIN_COUNT ≤ c then
                some { byHashLookup recent k with
                         anomaly_type := some "novelty"
                         anomaly_context := some (novContext c) }
              else none
            | some _ => none) := rfl
      have hf0 : freqEmit now stats recent st (k, c) =
          (if silencedNowB now st k then none else
            match lookupStat stats k with
            | none => none
            | some m =>
              if freqBreachB c m && decide (FREQUENCY_MIN_COUNT ≤ c) then
                some { byHashLookup recent k with
                         anomaly_type := some "frequency"
                         anomaly_context := some (freqContext c) }
              else none) := rfl
      rw [hn0, hf0, hsil']
      simp only [Bool.false_eq_true, if_false]
      cases hl : lookupStat stats k with
      | none =>
        by_cases hc : NOVELTY_MIN_COUNT ≤ c
        · simp only [hl, hc, if_true]
          rw [ihn, ihf, novEmit_stable, freqEmit_stable]
          exact ⟨rfl, rfl⟩
        · simp only [hl, hc, if_false]
          rw [ihn, ihf, novEmit_stable, freqEmit_stable]
          exact ⟨rfl, rfl⟩
      | some m =>
        cases hb : (freqBreachB c m && decide (FREQUENCY_MIN_COUNT ≤ c)) with
        | true =>
          simp only [hl, hb, if_true]
          rw [ihn, ihf, novEmit_stable, freqEmit_stable]
          exact ⟨rfl, rfl⟩
        | false =>
          simp only [hl, hb, Bool.false_eq_true, if_false]
          rw [ihn, ihf, novEmit_stable, freqEmit_stable]
          exact ⟨rfl, rfl⟩

/-- The analyzer's outputs, via `rhythmLoop_char`: `filterMap`s of the
recent `Counter` items. -/
theorem findRhythm_eq (now : Int) (windowSec : Nat) (st : ControlState)
    (recent hist : List Payload) :
    (findRhythmAnomalies now windowSec st recent hist).novel =
        (counterItems (recent.map (·.rhythm_hash))).filterMap
          (novEmit now (calcHistStats hist (windowSec : ℚ)) recent st) ∧
      (findRhythmAnomalies now windowSec st recent hist).frequency =
        (counterItems (recent.map (·.rhythm_hash))).filterMap
          (freqEmit now (calcHistStats hist (windowSec : ℚ)) recent st) := by
  cases recent with
  | nil => exact ⟨rfl, rfl⟩
  | cons p t =>
    unfold findRhythmAnomalies
    dsimp only
    exact ⟨(rhythmLoop_char now _ _ _ st).1, (rhythmLoop_char now _ _ _ st).2⟩

/-- Membership of a fingerprint in the returned novelty list, fully
characterized: not silenced, present in the recent window, absent from
the baseline, and at least `NOVELTY_MIN_COUNT` occurrences. -/
theorem novel_mem_iff (now : Int) (windowSec : Nat) (st : ControlState)
    (recent hist : List Payload) (h : String) :
    h ∈ ((findRhythmAnomalies now windowSec st recent hist).novel.map
        (·.rhythm_hash)) ↔
      (silencedNowB now st h = false ∧
       h ∈ recent.map (·.rhythm_hash) ∧
       lookupStat (calcHistStats hist (windowSec : ℚ)) h = none ∧
       NOVELTY_MIN_COUNT ≤ (recent.map (·.rhythm_hash)).count h) := by
  rw [(findRhythm_eq now windowSec st recent hist).1, List.mem_map]
  constructor
  · rintro ⟨p, hp, rfl⟩
    rw [List.mem_filterMap] at hp
    obtain ⟨⟨k, c⟩, hit, hemit⟩ := hp
    unfold novEmit at hemit
    by_cases hs : silencedNowB now st k = true
    · rw [if_pos hs] at hemit
      exact absurd hemit (by simp)
    · have hs' : silencedNowB now st k = false := by
        cases hx : silencedNowB now st k with
        | true => exact absurd hx hs
        | false => rfl
      rw [if_neg (by rw [hs']; simp)] at hemit
      cases hl : lookupStat (calcHistStats hist (windowSec : ℚ)) k with
      | some m => rw [hl] at hemit; exact absurd hemit (by simp)
      | none =>
        rw [hl] at hemit
        dsimp only at hemit
        by_cases hc : NOVELTY_MIN_COUNT ≤ c
        · rw [if_pos hc] at hemit
          have hph : p = { byHashLookup recent k with
              anomaly_type := some "novelty"
              anomaly_context := some (novContext c) } :=
            (Option.some.injEq _ _ ▸ hemit).symm
          have hhash : p.rhythm_hash = k := by rw [hph]; exact byHashLookup_hash recent k
          rw [hhash]
          obtain ⟨hmem, hcnt⟩ := (counterItems_mem _ _ _).mp hit
          exact ⟨hs', hmem, hl, hcnt ▸ hc⟩
        · rw [if_neg hc] at hemit
          exact absurd hemit (by simp)
  · rintro ⟨hsil, hmem, hlook, hcnt⟩
    refine ⟨{ byHashLookup recent h with
        anomaly_type := some "novelty"
        anomaly_context :=
          some (novContext ((recent.map (·.rhythm_hash)).count h)) }, ?_,
      byHashLookup_hash recent h⟩
    rw [List.mem_filterMap]
    refine ⟨(h, (recent.map (·.rhythm_hash)).count h),
      (counterItems_mem _ _ _).mpr ⟨hmem, rfl⟩, ?_⟩
    unfold novEmit
    rw [if_neg (by rw [hsil]; simp), hlook, if_pos hcnt]

/-- Membership in the returned frequency list, fully characterized. -/
theorem freq_mem_iff (now : Int) (windowSec : Nat) (st : ControlState)
    (recent hist : List Payload) (h : String) :
    h ∈ ((findRhythmAnomalies now windowSec st recent hist).frequency.map
        (·.rhythm_hash)) ↔
      (silencedNowB now st h = false ∧
       h ∈ recent.map (·.rhythm_hash) ∧
       ∃ m, lookupStat (calcHistStats hist (windowSec : ℚ)) h = some m ∧
         (freqBreachB ((recent.map (·.rhythm_hash)).count h) m &&
           decide (FREQUENCY_MIN_COUNT ≤
             (recent.map (·.rhythm_hash)).count h)) = true) := by
  rw [(findRhythm_eq now windowSec st recent hist).2, List.mem_map]
  constructor
  · rintro ⟨p, hp, rfl⟩
    rw [List.mem_filterMap] at hp
    obtain ⟨⟨k, c⟩, hit, hemit⟩ := hp
    unfold freqEmit at hemit
    by_cases hs : silencedNowB now st k = true
    · rw [if_pos hs] at hemit
      exact absurd hemit (by simp)
    · have hs' : silencedNowB now st k = false := by
        cases hx : silencedNowB now st k with
        | true => exact absurd hx hs
        | false => rfl
      rw [if_neg (by rw [hs']; simp)] at hemit
      cases hl : lookupStat (calcHistStats hist (windowSec : ℚ)) k with
      | none => rw [hl] at hemit; exact absurd hemit (by simp)
      | some m =>
        rw [hl] at hemit
        dsimp only at hemit
        by_cases hb : (freqBreachB c m && decide (FREQUENCY_MIN_COUNT ≤ c)) = true
        · rw [if_pos hb] at hemit
          have hph : p = { byHashLookup recent k with
              anomaly_type := some "frequency"
              anomaly_context := some (freqContext c) } :=
            (Option.some.injEq _ _ ▸ hemit).symm
          have hhash : p.rhythm_hash = k := by rw [hph]; exact byHashLookup_hash recent k
          rw [hhash]
          obtain ⟨hmem, hcnt⟩ := (counterItems_mem _ _ _).mp hit
          exact ⟨hs', hmem, m, hl, hcnt ▸ hb⟩
        · rw [if_neg hb] at hemit
          exact absurd hemit (by simp)
  · rintro ⟨hsil, hmem, m, hlook, hb⟩
    refine ⟨{ byHashLookup recent h with
        anomaly_type := some "frequency"
        anomaly_context :=
          some (freqContext ((recent.map (·.rhythm_hash)).count h)) }, ?_,
      byHashLookup_hash recent h⟩
    rw [List.mem_filterMap]
    refine ⟨(h, (recent.map (·.rhythm_hash)).count h),
      (counterItems_mem _ _ _).mpr ⟨hmem, rfl⟩, ?_⟩
    unfold freqEmit
    dsimp only
    rw [if_neg (by rw [hsil]; simp), hlook]
    dsimp only
    rw [if_pos hb]

/-- The control filter of the cluster listing never lets a silenced id
through. -/
theorem controlFilter_silenced_not_mem (now : Int) (h : String) :
    ∀ (l : List HashGroup) (st : ControlState),
      silencedNowB now st h = true →
      h ∉ ((controlFilterGroups now st l).1.map (·.id)) := by
  intro l
  induction l with
  | nil => intro st hs; simp [controlFilterGroups]
  | cons g t ih =>
    intro st hs
    have hs' : silencedNowB now (isSuppressedOrPatched now st g.id).2 h = true := by
      rw [silenced_stable]; exact hs
    rw [controlFilterGroups]
    dsimp only
    by_cases hg : (isSuppressedOrPatched now st g.id).1 = true
    · rw [if_pos hg]
      exact ih _ hs'
    · have hgF : (isSuppressedOrPatched now st g.id).1 = false := by
        cases hx : (isSuppressedOrPatched now st g.id).1 with
        | true => exact absurd hx hg
        | false => rfl
      rw [if_neg (by rw [hgF]; simp)]
      rw [List.map_cons]
      intro hx
      rcases List.mem_cons.mp hx with he | hx
      · rw [isSuppressedOrPatched_fst] at hgF
        rw [← he] at hgF
        rw [hs] at hgF
        exact Bool.noConfusion hgF
      · exact ih _ hs' hx

/-- C1: a fingerprint that is an active ALLOW_LIST patch or carries a
non-expired suppression at the invocation's clock appears in neither
`novel_anomalies` nor `frequency_anomalies` of `find_rhythm_anomalies`,
and never as a `cluster_id` of `find_tier2_clusters`. -/
theorem claim_C1 :
    ∀ (now : Int) (windowSec : Nat) (st : ControlState)
      (recent hist : List Payload)
      (results : List (Except Unit GroupsResult)) (h : String),
      silencedNowB now st h = true →
      (h ∉ ((findRhythmAnomalies now windowSec st recent hist).novel.map
          (·.rhythm_hash)) ∧
       h ∉ ((findRhythmAnomalies now windowSec st recent hist).frequency.map
          (·.rhythm_hash)) ∧
       h ∉ ((findTier2Clusters now st results).1.map (·.cluster_id))) := by
  intro now windowSec st recent hist results h hs
  refine ⟨?_, ?_, ?_⟩
  · intro hmem
    rw [novel_mem_iff] at hmem
    rw [hmem.1] at hs
    exact Bool.noConfusion hs
  · intro hmem
    rw [freq_mem_iff] at hmem
    rw [hmem.1] at hs
    exact Bool.noConfusion hs
  · intro hmem
    unfold findTier2Clusters at hmem
    dsimp only at hmem
    rw [List.mem_map] at hmem
    obtain ⟨cl, hcl, hid⟩ := hmem
    rw [List.mem_filterMap] at hcl
    obtain ⟨g, hg, hshape⟩ := hcl
    have hgid : cl.cluster_id = g.id := by
      unfold clusterShape at hshape
      cases hh : g.hits with
      | nil => rw [hh] at hshape; exact absurd hshape (by simp)
      | cons hh0 hht =>
        rw [hh] at hshape
        have := (Option.some.injEq _ _ ▸ hshape).symm
        rw [this]
    exact controlFilter_silenced_not_mem now h _ st hs
      (List.mem_map.mpr ⟨g, hg, by rw [← hgid, hid]⟩)

/-- C1 witness: patched "F" is absent from a concrete analyzer run over
"F"/"G" traffic and from a concrete cluster listing whose partitions
returned an "F" group. -/
theorem witness_C1 :
    "F" ∉ ((findRhythmAnomalies 50 60 ctrlW [payF 1, payG 2] []).novel.map
        (·.rhythm_hash)) ∧
      "F" ∉ ((findRhythmAnomalies 50 60 ctrlW [payF 1, payG 2] []).frequency.map
        (·.rhythm_hash)) ∧
      "F" ∉ ((findTier2Clusters 50 ctrlW groupsW).1.map (·.cluster_id)) :=
  claim_C1 50 60 ctrlW [payF 1, payG 2] [] groupsW "F" (by decide)

/-! ## C10 — degenerate historical sample -/

theorem calcHistStats_nil {points : List Payload} (w : ℚ)
    (hlen : points.length < 2) : calcHistStats points w = [] := by
  unfold calcHistStats
  rw [if_pos hlen]

/-- C10: with fewer than two historical points the baseline is empty, so
no frequency anomaly can be emitted, and every recent fingerprint —
including one occurring in the single historical point — is treated as
unknown: it is emitted as a novelty exactly when it is not silenced and
its recent count reaches `NOVELTY_MIN_COUNT`. -/
theorem claim_C10 :
    ∀ (now : Int) (windowSec : Nat) (st : ControlState)
      (recent hist : List Payload) (h : String),
      hist.length < 2 →
      ((findRhythmAnomalies now windowSec st recent hist).frequency = [] ∧
       (h ∈ ((findRhythmAnomalies now windowSec st recent hist).novel.map
           (·.rhythm_hash)) ↔
         (silencedNowB now st h = false ∧
          h ∈ recent.map (·.rhythm_hash) ∧
          NOVELTY_MIN_COUNT ≤ (recent.map (·.rhythm_hash)).count h))) := by
  intro now windowSec st recent hist h hlen
  constructor
  · rw [(findRhythm_eq now windowSec st recent hist).2]
    rw [calcHistStats_nil _ hlen]
    rw [List.filterMap_eq_nil]
    intro it _
    unfold freqEmit
    by_cases hs : silencedNowB now st it.1 = true
    · rw [if_pos hs]
    · rw [if_neg (by rw [show silencedNowB now st it.1 = false by
        cases hx : silencedNowB now st it.1 with
        | true => exact absurd hx hs
        | false => rfl]; simp)]
      rfl
  · rw [novel_mem_iff]
    rw [calcHistStats_nil _ hlen]
    constructor
    · rintro ⟨a, b, _, d⟩
      exact ⟨a, b, d⟩
    · rintro ⟨a, b, d⟩
      exact ⟨a, b, rfl, d⟩

/-- C10 witness: one historical point carrying "G" itself; two recent "G"
hits are still emitted as a novelty and no frequency anomaly exists. -/
theorem witness_C10 :
    (findRhythmAnomalies 100 60 ⟨[], []⟩ [payG 10, payG 11]
        [payG 0]).frequency = [] ∧
      ("G" ∈ ((findRhythmAnomalies 100 60 ⟨[], []⟩ [payG 10, payG 11]
          [payG 0]).novel.map (·.rhythm_hash)) ↔
        (silencedNowB 100 ⟨[], []⟩ "G" = false ∧
         "G" ∈ [payG 10, payG 11].map (·.rhythm_hash) ∧
         NOVELTY_MIN_COUNT ≤
           ([payG 10, payG 11].map (·.rhythm_hash)).count "G")) :=
  claim_C10 100 60 ⟨[], []⟩ [payG 10, payG 11] [payG 0] "G" (by decide)

/-! ## C4 — baseline normalization and threshold boundaries -/

theorem lookupStat_keyMap (ks : List String) (f : String → ℚ) (h : String) :
    lookupStat (ks.map fun k => (k, f k)) h =
      if h ∈ ks then some (f h) else none := by
  induction ks with
  | nil => simp [lookupStat]
  | cons k t ih =>
    rw [List.map_cons, lookupStat]
    dsimp only
    by_cases hk : k = h
    · rw [if_pos hk, if_pos (by rw [hk]; exact List.mem_cons_self ..), hk]
    · rw [if_neg hk, ih]
      by_cases hm : h ∈ t
      · rw [if_pos hm, if_pos (List.mem_cons_of_mem _ hm)]
      · rw [if_neg hm, if_neg (by
          intro hx
          rcases List.mem_cons.mp hx with he | hm2
          · exact hk he.symm
          · exact hm hm2)]

/-- The baseline dictionary realizes exactly the specification's
normalized mean for every fingerprint of the sample. -/
theorem calcHistStats_lookup (points : List Payload) (windowSec : Nat)
    (h : String) (hlen : 2 ≤ points.length) :
    lookupStat (calcHistStats points (windowSec : ℚ)) h =
      if h ∈ points.map (·.rhythm_hash) then some (meanQ points windowSec h)
      else none := by
  unfold calcHistStats
  rw [if_neg (by omega)]
  dsimp only
  rw [lookupStat_keyMap]
  by_cases hm : h ∈ points.map (·.rhythm_hash)
  · rw [if_pos ((counterKeys_mem _ _).mpr hm), if_pos hm]
    rfl
  · rw [if_neg (fun hx => hm ((counterKeys_mem _ _).mp hx)), if_neg hm]

theorem meanQ_nonneg (hist : List Payload) (windowSec : Nat) (h : String) :
    0 ≤ meanQ hist windowSec h := by
  unfold meanQ
  apply mul_nonneg (Nat.cast_nonneg _)
  apply div_nonneg (Nat.cast_nonneg _)
  exact le_trans zero_le_one (le_max_left _ _)

/-- The exact rational decision procedure `freqBreachB` agrees with the
real-number threshold `count > mean + 2.5 · max(1.5, √mean)`. -/
theorem freqBreach_iff_real (c : Nat) (m : ℚ) (hm : 0 ≤ m) :
    freqBreachB c m = true ↔
      (m : ℝ) + 5 / 2 * max (3 / 2) (Real.sqrt (m : ℝ)) < (c : ℝ) := by
  unfold freqBreachB
  by_cases hle : m ≤ 9 / 4
  · rw [if_pos hle, decide_eq_true_eq]
    have hsq : Real.sqrt (m : ℝ) ≤ 3 / 2 := by
      rw [show (3 / 2 : ℝ) = Real.sqrt ((3 / 2) ^ 2) from
        (Real.sqrt_sq (by norm_num)).symm]
      apply Real.sqrt_le_sqrt
      rw [show ((3 : ℝ) / 2) ^ 2 = ((9 : ℝ) / 4) by norm_num]
      have hx : ((m : ℝ)) ≤ (((9 / 4 : ℚ)) : ℝ) := Rat.cast_le.mpr hle
      norm_num at hx
      exact hx
    rw [max_eq_left hsq]
    constructor
    · intro h
      have hR : ((m + 15 / 4 : ℚ) : ℝ) < (c : ℝ) := by exact_mod_cast h
      push_cast at hR
      linarith
    · intro h
      have hR : ((m + 15 / 4 : ℚ) : ℝ) < (c : ℝ) := by push_cast; linarith
      exact_mod_cast hR
  · rw [if_neg hle, Bool.and_eq_true, decide_eq_true_eq, decide_eq_true_eq]
    have h94 : (9 / 4 : ℚ) < m := lt_of_not_le hle
    have hsq : (3 / 2 : ℝ) ≤ Real.sqrt (m : ℝ) := by
      rw [show (3 / 2 : ℝ) = Real.sqrt ((3 / 2) ^ 2) from
        (Real.sqrt_sq (by norm_num)).symm]
      apply Real.sqrt_le_sqrt
      rw [show ((3 : ℝ) / 2) ^ 2 = ((9 : ℝ) / 4) by norm_num]
      have hx : (((9 / 4 : ℚ)) : ℝ) < ((m : ℝ)) := Rat.cast_lt.mpr h94
      norm_num at hx
      linarith
    rw [max_eq_right hsq]
    have hmR : (0 : ℝ) ≤ (m : ℝ) := by exact_mod_cast hm
    have hss : Real.sqrt (m : ℝ) ^ 2 = (m : ℝ) := Real.sq_sqrt hmR
    have hsn : (0 : ℝ) ≤ Real.sqrt (m : ℝ) := Real.sqrt_nonneg _
    have hkey : ((5 : ℝ) / 2 * Real.sqrt (m : ℝ)) ^ 2 = 25 / 4 * (m : ℝ) := by
      rw [mul_pow, hss]
      norm_num
    constructor
    · rintro ⟨h1, h2⟩
      have h1R : (m : ℝ) < (c : ℝ) := by exact_mod_cast h1
      have h2R : (25 : ℝ) / 4 * (m : ℝ) < ((c : ℝ) - (m : ℝ)) ^ 2 := by
        have hx := Rat.cast_lt (K := ℝ) |>.mpr h2
        push_cast at hx
        convert hx using 2 <;> norm_num
      by_contra hcon
      push_neg at hcon
      have hle2 : (c : ℝ) - (m : ℝ) ≤ 5 / 2 * Real.sqrt (m : ℝ) := by linarith
      have hnn : (0 : ℝ) ≤ (c : ℝ) - (m : ℝ) := by linarith
      have := pow_le_pow_left hnn hle2 2
      rw [hkey] at this
      linarith
    · intro h
      have h52 : (0 : ℝ) ≤ 5 / 2 * Real.sqrt (m : ℝ) := by positivity
      have hc : (m : ℝ) < (c : ℝ) := by linarith
      refine ⟨by exact_mod_cast hc, ?_⟩
      have h' : 5 / 2 * Real.sqrt (m : ℝ) < (c : ℝ) - (m : ℝ) := by linarith
      have hx := pow_lt_pow_left h' h52 (by norm_num : 2 ≠ 0)
      rw [hkey] at hx
      apply Rat.cast_lt (K := ℝ) |>.mp
      push_cast
      convert hx using 2 <;> norm_num

/-- Sorted-descending samples have their newest point first and oldest
last. -/
theorem sorted_desc_bounds :
    ∀ (hist : List Payload), hist.Sorted (fun a b => b.ts ≤ a.ts) →
      ∀ p ∈ hist, (((hist.getLast?.map (·.ts))).getD 0) ≤ p.ts ∧
        p.ts ≤ (((hist.head?.map (·.ts))).getD 0) := by
  intro hist
  induction hist with
  | nil => intro _ p hp; simp at hp
  | cons a t ih =>
    intro hs p hp
    obtain ⟨hra, hst⟩ := List.pairwise_cons.mp hs
    constructor
    · cases t with
      | nil =>
        have : p = a := by simpa using hp
        subst this
        exact le_refl _
      | cons b t2 =>
        rw [List.getLast?_cons_cons]
        rcases List.mem_cons.mp hp with rfl | hp2
        · have hbne : (b :: t2) ≠ [] := by simp
          obtain ⟨x, hxl⟩ : ∃ x, (b :: t2).getLast? = some x :=
            ⟨(b :: t2).getLast hbne, List.getLast?_eq_getLast_of_ne_nil hbne⟩
          rw [hxl]
          have hxm : x ∈ b :: t2 := getLastSome_mem hxl
          exact hra x hxm
        · exact (ih hst p hp2).1
    · rcases List.mem_cons.mp hp with rfl | hp2
      · exact le_refl _
      · exact hra p hp2

/-- C4: for an invocation with at least two historical points (ordered
newest first) and an unsilenced fingerprint `h`: the sample's duration
endpoints bound every timestamp; a known fingerprint is emitted as a
frequency anomaly iff its recent count strictly exceeds
`mean + 2.5·max(1.5, √mean)` (mean normalized as
`c_h × (window/hist_duration)`) and reaches `FREQUENCY_MIN_COUNT = 3`;
an unknown fingerprint is emitted as a novelty iff its count reaches
`NOVELTY_MIN_COUNT = 2`.  The S2 numbers: with "G" 12 times over 3600 s
and window 60 s, mean is 1/5 and threshold 3.95, so a window with 4
occurrences emits and one with 3 does not. -/
theorem claim_C4 :
    (∀ (now : Int) (windowSec : Nat) (st : ControlState)
       (recent hist : List Payload) (h : String),
       2 ≤ hist.length →
       hist.Sorted (fun a b => b.ts ≤ a.ts) →
       silencedNowB now st h = false →
       ((∀ p ∈ hist, (((hist.getLast?.map (·.ts))).getD 0) ≤ p.ts ∧
           p.ts ≤ (((hist.head?.map (·.ts))).getD 0)) ∧
        (h ∈ ((findRhythmAnomalies now windowSec st recent hist).frequency.map
            (·.rhythm_hash)) ↔
          (h ∈ recent.map (·.rhythm_hash) ∧
           h ∈ hist.map (·.rhythm_hash) ∧
           FREQUENCY_MIN_COUNT ≤ (recent.map (·.rhythm_hash)).count h ∧
           ((meanQ hist windowSec h : ℚ) : ℝ) +
               5 / 2 * max (3 / 2)
                 (Real.sqrt ((meanQ hist windowSec h : ℚ) : ℝ)) <
             ((recent.map (·.rhythm_hash)).count h : ℝ))) ∧
        (h ∈ ((findRhythmAnomalies now windowSec st recent hist).novel.map
            (·.rhythm_hash)) ↔
          (h ∈ recent.map (·.rhythm_hash) ∧
           h ∉ hist.map (·.rhythm_hash) ∧
           NOVELTY_MIN_COUNT ≤ (recent.map (·.rhythm_hash)).count h)))) ∧
    ("G" ∈ ((findRhythmAnomalies 4100 60 ⟨[], []⟩ (recentS2 4)
        histS2).frequency.map (·.rhythm_hash)) ∧
     "G" ∉ ((findRhythmAnomalies 4100 60 ⟨[], []⟩ (recentS2 3)
        histS2).frequency.map (·.rhythm_hash)) ∧
     lookupStat (calcHistStats histS2 (60 : ℚ)) "G" = some (1 / 5)) := by
  constructor
  · intro now windowSec st recent hist h hlen hsorted hsil
    refine ⟨sorted_desc_bounds hist hsorted, ?_, ?_⟩
    · rw [freq_mem_iff]
      constructor
      · rintro ⟨_, hmem, m, hlook, hb⟩
        rw [calcHistStats_lookup _ _ _ hlen] at hlook
        by_cases hmh : h ∈ hist.map (·.rhythm_hash)
        · rw [if_pos hmh] at hlook
          have hmm : m = meanQ hist windowSec h := (Option.some.injEq _ _ ▸ hlook).symm
          subst hmm
          rw [Bool.and_eq_true, decide_eq_true_eq] at hb
          exact ⟨hmem, hmh, hb.2,
            (freqBreach_iff_real _ _ (meanQ_nonneg _ _ _)).mp hb.1⟩
        · rw [if_neg hmh] at hlook
          exact absurd hlook (by simp)
      · rintro ⟨hmem, hmh, hcnt, hreal⟩
        refine ⟨hsil, hmem, meanQ hist windowSec h, ?_, ?_⟩
        · rw [calcHistStats_lookup _ _ _ hlen, if_pos hmh]
        · rw [Bool.and_eq_true, decide_eq_true_eq]
          exact ⟨(freqBreach_iff_real _ _ (meanQ_nonneg _ _ _)).mpr hreal, hcnt⟩
    · rw [novel_mem_iff]
      constructor
      · rintro ⟨_, hmem, hlook, hcnt⟩
        rw [calcHistStats_lookup _ _ _ hlen] at hlook
        by_cases hmh : h ∈ hist.map (·.rhythm_hash)
        · rw [if_pos hmh] at hlook
          exact absurd hlook (by simp)
        · exact ⟨hmem, hmh, hcnt⟩
      · rintro ⟨hmem, hmh, hcnt⟩
        refine ⟨hsil, hmem, ?_, hcnt⟩
        rw [calcHistStats_lookup _ _ _ hlen, if_neg hmh]
  · refine ⟨by with_unfolding_all decide, by with_unfolding_all decide,
      by with_unfolding_all decide⟩

/-- C4 witness: the general characterization applied to the concrete S2
sample (12 "G" points over 3600 s, window 60 s, 4 recent "G" hits). -/
theorem witness_C4 :
    (∀ p ∈ histS2, (((histS2.getLast?.map (·.ts))).getD 0) ≤ p.ts ∧
        p.ts ≤ (((histS2.head?.map (·.ts))).getD 0)) ∧
      ("G" ∈ ((findRhythmAnomalies 4100 60 ⟨[], []⟩ (recentS2 4)
          histS2).frequency.map (·.rhythm_hash)) ↔
        ("G" ∈ (recentS2 4).map (·.rhythm_hash) ∧
         "G" ∈ histS2.map (·.rhythm_hash) ∧
         FREQUENCY_MIN_COUNT ≤ ((recentS2 4).map (·.rhythm_hash)).count "G" ∧
         ((meanQ histS2 60 "G" : ℚ) : ℝ) +
             5 / 2 * max (3 / 2) (Real.sqrt ((meanQ histS2 60 "G" : ℚ) : ℝ)) <
           (((recentS2 4).map (·.rhythm_hash)).count "G" : ℝ))) ∧
      ("G" ∈ ((findRhythmAnomalies 4100 60 ⟨[], []⟩ (recentS2 4)
          histS2).novel.map (·.rhythm_hash)) ↔
        ("G" ∈ (recentS2 4).map (·.rhythm_hash) ∧
         "G" ∉ histS2.map (·.rhythm_hash) ∧
         NOVELTY_MIN_COUNT ≤ ((recentS2 4).map (·.rhythm_hash)).count "G")) :=
  claim_C4.1 4100 60 ⟨[], []⟩ (recentS2 4) histS2 "G" (by decide)
    (by decide) (by decide)

/-- C9 witness: a fan-out with one failed partition still yields exactly
the successful partition's hits. -/
theorem witness_C9 :
    (federatedSearch [.ok [⟨"a", 1, sampleEventPayload⟩], .error ()]).Perm
      (okResults [.ok [⟨"a", 1, sampleEventPayload⟩],
        .error ()]).flatten :=
  (claim_C9 [.ok [⟨"a", 1, sampleEventPayload⟩], .error ()] 0 [] ["x"]
    (by decide)).2.1

/-! ## C3 — S1/S3 pipeline and cluster counts (corrected)

The analyzer emits ONE representative payload per fingerprint
(`novel_anomalies.append(payload)` runs once per `Counter` key), so the
group that promotion builds for a fingerprint holds one item and the
stored EventCluster has `count = 1`, not the number of recent logs (the
recent count 3 survives only inside `anomaly_context`). -/

theorem sorted_asc_bounds :
    ∀ (l : List Payload), l.Sorted (fun a b => a.ts ≤ b.ts) →
      ∀ p ∈ l, (((l.head?.map (·.ts))).getD 0) ≤ p.ts ∧
        p.ts ≤ (((l.getLast?.map (·.ts))).getD 0) := by
  intro l
  induction l with
  | nil => intro _ p hp; simp at hp
  | cons a t ih =>
    intro hs p hp
    obtain ⟨hra, hst⟩ := List.pairwise_cons.mp hs
    constructor
    · rcases List.mem_cons.mp hp with rfl | hp2
      · exact le_refl _
      · exact hra p hp2
    · cases t with
      | nil =>
        have : p = a := by simpa using hp
        subst this
        exact le_refl _
      | cons b t2 =>
        rw [List.getLast?_cons_cons]
        rcases List.mem_cons.mp hp with rfl | hp2
        · have hbne : (b :: t2) ≠ [] := by simp
          obtain ⟨x, hxl⟩ : ∃ x, (b :: t2).getLast? = some x :=
            ⟨(b :: t2).getLast hbne, List.getLast?_eq_getLast_of_ne_nil hbne⟩
          rw [hxl]
          have hxm : x ∈ b :: t2 := getLastSome_mem hxl
          exact hra x hxm
        · exact (ih hst p hp2).2

/-- C3 counterexample: running the full S1 pipeline (three ingested
records with bodies differing only in decimal runs, empty baseline)
promotes exactly one EventCluster whose `count` is 1 — not 3 as the
claim asserts — while the recent count 3 appears only in the
`anomaly_context` string. -/
theorem counterexample_C3 :
    s1Res.promoted.map (·.payload.count) = [1] ∧ (1 : Nat) ≠ 3 := by
  refine ⟨by decide, by decide⟩

/-- C3 (amended): for every promoted group the EventCluster's `count`
equals the number of anomaly *items* sharing the fingerprint (one per
fingerprint when fed by the analyzer), with `start_ts`/`end_ts` the
first/last timestamp of the group after sorting ascending; the S1/S3 run
yields one novelty, one cluster with `count = 1`, service "svc-a",
`anomaly_type` "novelty", context "New pattern seen 3 times.", upserted
into partition `via_forensic_index_2025_03_14`. -/
theorem claim_C3 :
    (∀ (anomalies : List Payload) (e : PromotedEvent),
       e ∈ promoteAnomalies anomalies →
       (e.payload.count =
          (anomalies.filter
            (fun p => p.rhythm_hash == e.payload.rhythm_hash)).length ∧
        (∃ p ∈ anomalies, p.rhythm_hash = e.payload.rhythm_hash ∧
           p.ts = e.payload.start_ts) ∧
        (∃ p ∈ anomalies, p.rhythm_hash = e.payload.rhythm_hash ∧
           p.ts = e.payload.end_ts) ∧
        ∀ p ∈ anomalies, p.rhythm_hash = e.payload.rhythm_hash →
          e.payload.start_ts ≤ p.ts ∧ p.ts ≤ e.payload.end_ts)) ∧
    ((s1Res.novel.length, s1Res.frequency,
      s1Res.promoted.map (·.payload.count),
      s1Res.promoted.map (·.payload.service)) =
       (1, ([] : List Payload), [1], ["svc-a"]) ∧
     (s1Res.promoted.map (·.payload.anomaly_type),
      s1Res.promoted.map (·.payload.anomaly_context),
      s1Tier2.1.map (·.1), s1Tier2.2) =
       (["novelty"], ["New pattern seen 3 times."],
        ["via_forensic_index_2025_03_14"], 1)) := by
  constructor
  · intro anomalies e hm
    unfold promoteAnomalies at hm
    rw [List.mem_map] at hm
    obtain ⟨pr, hpr, rfl⟩ := hm
    dsimp only
    obtain ⟨⟨y, hy, hyk⟩, hg⟩ := groupByKey_spec _ anomalies hpr
    have hymem : y ∈ pr.2 := by
      rw [hg]
      exact List.mem_filter.mpr ⟨hy, by simp [hyk]⟩
    have hperm : (pr.2.insertionSort (fun a b => a.ts ≤ b.ts)).Perm pr.2 :=
      List.perm_insertionSort _ _
    have hsorted : (pr.2.insertionSort (fun a b => a.ts ≤ b.ts)).Sorted
        (fun a b => a.ts ≤ b.ts) := List.sorted_insertionSort _ _
    have hsne : pr.2.insertionSort (fun a b => a.ts ≤ b.ts) ≠ [] := by
      intro h0
      rw [h0] at hperm
      have : pr.2 = [] := hperm.nil_eq.symm
      rw [this] at hymem
      simp at hymem
    refine ⟨?_, ?_, ?_, ?_⟩
    · rw [hg]
    · cases hS : pr.2.insertionSort (fun a b => a.ts ≤ b.ts) with
      | nil => exact absurd hS hsne
      | cons s0 srest =>
        have hs0 : s0 ∈ pr.2 := hperm.mem_iff.mp
          (by rw [hS]; exact List.mem_cons_self ..)
        have hs0' : s0 ∈ anomalies ∧ (s0.rhythm_hash == pr.1) = true := by
          rw [hg] at hs0
          exact List.mem_filter.mp hs0
        refine ⟨s0, hs0'.1, eq_of_beq hs0'.2, ?_⟩
        rfl
    · obtain ⟨x, hxl⟩ : ∃ x,
          (pr.2.insertionSort (fun a b => a.ts ≤ b.ts)).getLast? = some x :=
        ⟨_, List.getLast?_eq_getLast_of_ne_nil hsne⟩
      have hxm : x ∈ pr.2 := hperm.mem_iff.mp (getLastSome_mem hxl)
      have hx' : x ∈ anomalies ∧ (x.rhythm_hash == pr.1) = true := by
        rw [hg] at hxm
        exact List.mem_filter.mp hxm
      refine ⟨x, hx'.1, eq_of_beq hx'.2, ?_⟩
      rw [hxl]
      rfl
    · intro p hpa hph
      have hpmem : p ∈ pr.2 := by
        rw [hg]
        exact List.mem_filter.mpr ⟨hpa, by simp [hph]⟩
      have hpin : p ∈ pr.2.insertionSort (fun a b => a.ts ≤ b.ts) :=
        hperm.mem_iff.mpr hpmem
      exact sorted_asc_bounds _ hsorted p hpin
  · exact ⟨by decide, by decide⟩

/-- C3 witness: the general promotion facts at a concrete two-item group
with literal fingerprint "F". -/
theorem witness_C3 :
    (⟨"body F", ⟨"event_cluster", "F", 3, 5, 2, "svc-a", "INFO", "unknown",
        "", "body F", [.nested ⟨none⟩, .nested ⟨none⟩]⟩⟩ :
      PromotedEvent).payload.count =
        ([payF 5, payF 3].filter (fun p => p.rhythm_hash ==
          (⟨"body F", ⟨"event_cluster", "F", 3, 5, 2, "svc-a", "INFO",
            "unknown", "", "body F",
            [.nested ⟨none⟩, .nested ⟨none⟩]⟩⟩ :
          PromotedEvent).payload.rhythm_hash)).length ∧
      (∃ p ∈ [payF 5, payF 3],
        p.rhythm_hash = (⟨"body F", ⟨"event_cluster", "F", 3, 5, 2, "svc-a",
          "INFO", "unknown", "", "body F",
          [.nested ⟨none⟩, .nested ⟨none⟩]⟩⟩ :
            PromotedEvent).payload.rhythm_hash ∧
        p.ts = (⟨"body F", ⟨"event_cluster", "F", 3, 5, 2, "svc-a", "INFO",
          "unknown", "", "body F", [.nested ⟨none⟩, .nested ⟨none⟩]⟩⟩ :
            PromotedEvent).payload.start_ts) ∧
      (∃ p ∈ [payF 5, payF 3],
        p.rhythm_hash = (⟨"body F", ⟨"event_cluster", "F", 3, 5, 2, "svc-a",
          "INFO", "unknown", "", "body F",
          [.nested ⟨none⟩, .nested ⟨none⟩]⟩⟩ :
            PromotedEvent).payload.rhythm_hash ∧
        p.ts = (⟨"body F", ⟨"event_cluster", "F", 3, 5, 2, "svc-a", "INFO",
          "unknown", "", "body F", [.nested ⟨none⟩, .nested ⟨none⟩]⟩⟩ :
            PromotedEvent).payload.end_ts) ∧
      ∀ p ∈ [payF 5, payF 3],
        p.rhythm_hash = (⟨"body F", ⟨"event_cluster", "F", 3, 5, 2, "svc-a",
          "INFO", "unknown", "", "body F",
          [.nested ⟨none⟩, .nested ⟨none⟩]⟩⟩ :
            PromotedEvent).payload.rhythm_hash →
        (⟨"body F", ⟨"event_cluster", "F", 3, 5, 2, "svc-a", "INFO",
          "unknown", "", "body F", [.nested ⟨none⟩, .nested ⟨none⟩]⟩⟩ :
            PromotedEvent).payload.start_ts ≤ p.ts ∧
          p.ts ≤ (⟨"body F", ⟨"event_cluster", "F", 3, 5, 2, "svc-a", "INFO",
            "unknown", "", "body F", [.nested ⟨none⟩, .nested ⟨none⟩]⟩⟩ :
              PromotedEvent).payload.end_ts :=
  claim_C3.1 [payF 5, payF 3]
    ⟨"body F", ⟨"event_cluster", "F", 3, 5, 2, "svc-a", "INFO", "unknown",
      "", "body F", [.nested ⟨none⟩, .nested ⟨none⟩]⟩⟩
    (by decide)

/-! ## C5 — template invariance

Structure lemmas for the regex engine, leading to: the template map
commutes with splitting the body at spaces, replaces any whole-word
UUID/IPv4/digit-run token by `*`, and leaves words without the
separator characters alone. -/

theorem runLen_le_length (p : Char → Bool) :
    ∀ l : List Char, runLen p l ≤ l.length := by
  intro l
  induction l with
  | nil => simp [runLen]
  | cons c t ih =>
    simp only [runLen, List.length_cons]
    split
    · omega
    · omega

theorem runLen_append_of_stop {p : Char → Bool} {seg rest : List Char}
    (hall : ∀ c ∈ seg, p c = true)
    (hstop : ∀ c ∈ rest.take 1, p c = false) :
    runLen p (seg ++ rest) = seg.length := by
  induction seg with
  | nil =>
    cases rest with
    | nil => rfl
    | cons c t =>
      have hc : p c = false := hstop c (by simp)
      simp [runLen, hc]
  | cons a t ih =>
    have ha : p a = true := hall a (by simp)
    have ih' := ih (fun c hc => hall c (by simp [hc]))
    simp [runLen, ha, ih']

theorem runLen_all {p : Char → Bool} {l : List Char}
    (hall : ∀ c ∈ l, p c = true) : runLen p l = l.length := by
  have := @runLen_append_of_stop p l [] hall (by simp)
  simpa using this

theorem runLen_zero_of_all_not {p : Char → Bool} {l : List Char}
    (h : ∀ c ∈ l, p c = false) : runLen p l = 0 := by
  cases l with
  | nil => rfl
  | cons c t => simp [runLen, h c (by simp)]

theorem runLen_append_stop {p : Char → Bool} {c0 : Char} {x y : List Char}
    (hc : p c0 = false) : runLen p (x ++ c0 :: y) = runLen p x := by
  induction x with
  | nil => simp [runLen, hc]
  | cons a t ih =>
    by_cases ha : p a = true
    · simp [runLen, ha, ih]
    · simp only [Bool.not_eq_true] at ha
      simp [runLen, ha]

theorem tryCount_none {cont : List Char → Option (List Char × List Char)}
    {lo : Nat} {l : List Char}
    (h : ∀ j, cont (l.drop j) = none) :
    ∀ k, tryCount cont lo l k = none := by
  intro k
  induction k with
  | zero =>
    show (if 0 < lo then none else (cont l).map fun pr => (pr.1, pr.2)) = none
    have h0 := h 0
    rw [List.drop_zero] at h0
    simp [h0]
  | succ k ih =>
    show (if k + 1 < lo then none else
      match cont (l.drop (k + 1)) with
      | some pr => some (l.take (k + 1) ++ pr.1, pr.2)
      | none => tryCount cont lo l k) = none
    rw [h (k + 1)]
    simp [ih]

theorem tryCount_eq_some {cont : List Char → Option (List Char × List Char)}
    {lo : Nat} {l : List Char} :
    ∀ {k : Nat} {c r : List Char}, tryCount cont lo l k = some (c, r) →
      ∃ j, j ≤ k ∧ lo ≤ j ∧ ∃ c2, cont (l.drop j) = some (c2, r) ∧
        c = l.take j ++ c2 := by
  intro k
  induction k with
  | zero =>
    intro c r h
    by_cases h0 : 0 < lo
    · simp [tryCount, h0] at h
    · simp only [tryCount, if_pos, if_neg h0] at h
      cases hc : cont l with
      | none => rw [hc] at h; simp at h
      | some pr =>
        rw [hc] at h
        simp only [Option.map_some'] at h
        refine ⟨0, le_refl 0, by omega, pr.1, ?_, ?_⟩
        · rw [List.drop_zero, hc]
          cases h; rfl
        · cases h; simp
  | succ k ih =>
    intro c r h
    by_cases hlt : k + 1 < lo
    · simp [tryCount, hlt] at h
    · simp only [tryCount, if_neg hlt] at h
      cases hc : cont (l.drop (k + 1)) with
      | none =>
        rw [hc] at h
        obtain ⟨j, hj, hlo, c2, hcj, hce⟩ := ih h
        exact ⟨j, by omega, hlo, c2, hcj, hce⟩
      | some pr =>
        rw [hc] at h
        refine ⟨k + 1, le_refl _, by omega, pr.1, ?_, ?_⟩
        · rw [hc]; cases h; rfl
        · cases h; rfl

theorem tryCount_hit {cont : List Char → Option (List Char × List Char)}
    {lo : Nat} {seg rest c2 r : List Char}
    (hlo : lo ≤ seg.length)
    (hc : cont rest = some (c2, r)) :
    tryCount cont lo (seg ++ rest) seg.length = some (seg ++ c2, r) := by
  cases hs : seg with
  | nil =>
    subst hs
    have h0 : ¬ 0 < lo := by simpa using hlo
    simp [tryCount, h0, hc]
  | cons a t =>
    subst hs
    show tryCount cont lo ((a :: t) ++ rest) (t.length + 1) = _
    have hlt : ¬ t.length + 1 < lo := by
      simp only [List.length_cons] at hlo; omega
    simp only [tryCount, if_neg hlt]
    have hdrop : ((a :: t) ++ rest).drop (t.length + 1) = rest :=
      List.drop_left' (by simp)
    have htake : ((a :: t) ++ rest).take (t.length + 1) = a :: t :=
      List.take_left' (by simp)
    rw [hdrop, hc, htake]

theorem matchElems_head_fail {e : PatElem} {es : List PatElem} {l : List Char}
    (hlo : 1 ≤ e.lo) (hz : runLen e.cls l = 0) :
    matchElems (e :: es) l = none := by
  show (let m := match e.hi with
      | some hh => min hh (runLen e.cls l)
      | none => runLen e.cls l
    tryCount (matchElems es) e.lo l m) = none
  cases hhi : e.hi with
  | some hh =>
    simp only [hhi, hz, Nat.min_zero]
    show tryCount (matchElems es) e.lo l 0 = none
    simp [tryCount, show 0 < e.lo by omega]
  | none =>
    simp only [hhi, hz]
    show tryCount (matchElems es) e.lo l 0 = none
    simp [tryCount, show 0 < e.lo by omega]

theorem matchElems_second_fail {e1 e2 : PatElem} {es : List PatElem}
    {l : List Char}
    (hlo : 1 ≤ e2.lo) (hz : ∀ j, runLen e2.cls (l.drop j) = 0) :
    matchElems (e1 :: e2 :: es) l = none := by
  show tryCount (matchElems (e2 :: es)) e1.lo l _ = none
  exact tryCount_none (fun j => matchElems_head_fail hlo (hz j)) _

theorem matchElems_append :
    ∀ {pat : List PatElem} {l c r : List Char},
      matchElems pat l = some (c, r) → l = c ++ r := by
  intro pat
  induction pat with
  | nil =>
    intro l c r h
    simp only [matchElems] at h
    cases h
    rfl
  | cons e es ih =>
    intro l c r h
    have h' : tryCount (matchElems es) e.lo l _ = some (c, r) := h
    obtain ⟨j, _, _, c2, hcj, hce⟩ := tryCount_eq_some h'
    have := ih hcj
    rw [hce, List.append_assoc, ← this, List.take_append_drop]

theorem matchElems_ne_nil {e : PatElem} {es : List PatElem}
    {l c r : List Char}
    (hlo : ∀ x ∈ e :: es, 1 ≤ x.lo)
    (h : matchElems (e :: es) l = some (c, r)) : c ≠ [] := by
  have h' : tryCount (matchElems es) e.lo l _ = some (c, r) := h
  obtain ⟨j, hj, hjlo, c2, hcj, hce⟩ := tryCount_eq_some h'
  have he : 1 ≤ e.lo := hlo e (by simp)
  have hj1 : 1 ≤ j := le_trans he hjlo
  cases l with
  | nil =>
    exfalso
    -- on the empty list the repeat bound is 0, forcing j = 0 < 1
    have hk : j ≤ (match e.hi with
        | some hh => min hh (runLen e.cls ([] : List Char))
        | none => runLen e.cls ([] : List Char)) := hj
    cases hhi : e.hi with
    | some hh => rw [hhi] at hk; simp [runLen] at hk; omega
    | none => rw [hhi] at hk; simp [runLen] at hk; omega
  | cons a t =>
    rw [hce]
    cases hj1' : j with
    | zero => omega
    | succ j' => simp

theorem matchElems_cons_exact {e : PatElem} {es : List PatElem}
    {seg rest c2 r : List Char}
    (hrl : runLen e.cls (seg ++ rest) = seg.length)
    (hlo : e.lo ≤ seg.length)
    (hhi : ∀ hh, e.hi = some hh → seg.length ≤ hh)
    (hrec : matchElems es rest = some (c2, r)) :
    matchElems (e :: es) (seg ++ rest) = some (seg ++ c2, r) := by
  show (let m := match e.hi with
      | some hh => min hh (runLen e.cls (seg ++ rest))
      | none => runLen e.cls (seg ++ rest)
    tryCount (matchElems es) e.lo (seg ++ rest) m) = _
  cases hhiv : e.hi with
  | some hh =>
    simp only [hhiv, hrl, min_eq_right (hhi hh hhiv)]
    exact tryCount_hit hlo hrec
  | none =>
    simp only [hhiv, hrl]
    exact tryCount_hit hlo hrec

theorem tryCount_split {cont : List Char → Option (List Char × List Char)}
    {c0 : Char} {y : List Char}
    (hcont : ∀ x : List Char, cont (x ++ c0 :: y) =
      (cont x).map fun pr => (pr.1, pr.2 ++ c0 :: y)) :
    ∀ (lo : Nat) (x : List Char) (k : Nat), k ≤ x.length →
      tryCount cont lo (x ++ c0 :: y) k =
        (tryCount cont lo x k).map fun pr => (pr.1, pr.2 ++ c0 :: y) := by
  intro lo x k
  induction k with
  | zero =>
    intro _
    by_cases h0 : 0 < lo
    · simp [tryCount, h0]
    · simp only [tryCount, if_neg h0, hcont x]
      cases cont x <;> simp
  | succ k ih =>
    intro hk
    by_cases hlt : k + 1 < lo
    · simp [tryCount, hlt]
    · show (if k + 1 < lo then none else
        match cont ((x ++ c0 :: y).drop (k + 1)) with
        | some pr => some ((x ++ c0 :: y).take (k + 1) ++ pr.1, pr.2)
        | none => tryCount cont lo (x ++ c0 :: y) k) = _
      rw [if_neg hlt, List.drop_append_of_le_length hk, hcont]
      conv_rhs =>
        rw [show tryCount cont lo x (k + 1) =
          (if k + 1 < lo then none else
            match cont (x.drop (k + 1)) with
            | some pr => some (x.take (k + 1) ++ pr.1, pr.2)
            | none => tryCount cont lo x k) from rfl]
      rw [if_neg hlt]
      cases hc : cont (x.drop (k + 1)) with
      | none => exact ih (by omega)
      | some pr => simp [List.take_append_of_le_length hk]

theorem matchElems_split {c0 : Char} {y : List Char} :
    ∀ (pat : List PatElem), (∀ e ∈ pat, e.cls c0 = false) →
      ∀ x : List Char, matchElems pat (x ++ c0 :: y) =
        (matchElems pat x).map fun pr => (pr.1, pr.2 ++ c0 :: y) := by
  intro pat
  induction pat with
  | nil => intro _ x; rfl
  | cons e es ih =>
    intro hall x
    have hc0 : e.cls c0 = false := hall e (by simp)
    have hrl : runLen e.cls (x ++ c0 :: y) = runLen e.cls x :=
      runLen_append_stop hc0
    have hx : runLen e.cls x ≤ x.length := runLen_le_length e.cls x
    have hcont := ih (fun e' he' => hall e' (by simp [he']))
    show (let m := match e.hi with
        | some hh => min hh (runLen e.cls (x ++ c0 :: y))
        | none => runLen e.cls (x ++ c0 :: y)
      tryCount (matchElems es) e.lo (x ++ c0 :: y) m) =
      (let m := match e.hi with
        | some hh => min hh (runLen e.cls x)
        | none => runLen e.cls x
      tryCount (matchElems es) e.lo x m).map fun pr => (pr.1, pr.2 ++ c0 :: y)
    cases hhi : e.hi with
    | some hh =>
      simp only [hhi, hrl]
      exact tryCount_split hcont e.lo x _ (le_trans (min_le_right _ _) hx)
    | none =>
      simp only [hhi, hrl]
      exact tryCount_split hcont e.lo x _ hx

theorem matchToken_split {c0 : Char} {y : List Char} {pat : List PatElem}
    (hall : ∀ e ∈ pat, e.cls c0 = false)
    (hw : isWordChar c0 = false) (x : List Char) :
    matchToken pat (x ++ c0 :: y) =
      (matchToken pat x).map fun pr => (pr.1, pr.2 ++ c0 :: y) := by
  unfold matchToken
  rw [matchElems_split pat hall x]
  cases hme : matchElems pat x with
  | none => rfl
  | some pr =>
    simp only [Option.map_some']
    have hb : endBoundary (pr.2 ++ c0 :: y) = endBoundary pr.2 := by
      cases pr.2 with
      | nil => simp [endBoundary, hw]
      | cons rc rt => rfl
    rw [hb]
    cases endBoundary pr.2 <;> simp

theorem matchToken_eq_some {pat : List PatElem} {l : List Char}
    {pr : List Char × List Char}
    (h : matchToken pat l = some pr) : matchElems pat l = some pr := by
  unfold matchToken at h
  cases hme : matchElems pat l with
  | none => rw [hme] at h; exact absurd h (by simp)
  | some pr' =>
    rw [hme] at h
    dsimp only at h
    cases hb : endBoundary pr'.2 <;> rw [hb] at h
    · exact absurd h (by simp)
    · simp only [if_pos rfl] at h
      cases h
      rfl

theorem subScanGo_nil (pat : List PatElem) (fuel : Nat) (b : Bool) :
    subScanGo pat fuel b [] = [] := by
  cases fuel <;> rfl

theorem subScanGo_fuel_eq (pat : List PatElem) (hne : pat ≠ [])
    (hlo : ∀ e ∈ pat, 1 ≤ e.lo) :
    ∀ (n : Nat) (l : List Char) (b : Bool) (f1 f2 : Nat),
      l.length ≤ n → l.length ≤ f1 → l.length ≤ f2 →
      subScanGo pat f1 b l = subScanGo pat f2 b l := by
  intro n
  induction n with
  | zero =>
    intro l b f1 f2 hn _ _
    have hl : l = [] := List.eq_nil_of_length_eq_zero (by omega)
    subst hl
    rw [subScanGo_nil, subScanGo_nil]
  | succ n ih =>
    intro l b f1 f2 hn h1 h2
    cases l with
    | nil => rw [subScanGo_nil, subScanGo_nil]
    | cons c rest =>
      simp only [List.length_cons] at hn h1 h2
      obtain ⟨f1', rfl⟩ : ∃ f1', f1 = f1' + 1 := ⟨f1 - 1, by omega⟩
      obtain ⟨f2', rfl⟩ : ∃ f2', f2 = f2' + 1 := ⟨f2 - 1, by omega⟩
      simp only [subScanGo]
      cases b with
      | true =>
        simp only [if_true]
        rw [ih rest (isWordChar c) f1' f2' (by omega) (by omega) (by omega)]
      | false =>
        simp only [Bool.false_eq_true, if_false]
        cases hmt : matchToken pat (c :: rest) with
        | none =>
          dsimp only
          rw [ih rest (isWordChar c) f1' f2' (by omega) (by omega) (by omega)]
        | some pr =>
          dsimp only
          obtain ⟨e, es, rfl⟩ : ∃ e es, pat = e :: es := by
            cases pat with
            | nil => exact absurd rfl hne
            | cons e es => exact ⟨e, es, rfl⟩
          have hme := matchToken_eq_some hmt
          have happ : c :: rest = pr.1 ++ pr.2 := by
            have := matchElems_append (c := pr.1) (r := pr.2)
              (by rw [Prod.mk.eta] at *; exact hme)
            exact this
          have hcne : pr.1 ≠ [] :=
            matchElems_ne_nil hlo (by rw [Prod.mk.eta]; exact hme)
          have hlen : pr.2.length ≤ rest.length := by
            have : (c :: rest).length = pr.1.length + pr.2.length := by
              rw [happ, List.length_append]
            have h1' : 1 ≤ pr.1.length := by
              cases hp : pr.1 with
              | nil => exact absurd hp hcne
              | cons _ _ => simp
            simp only [List.length_cons] at this
            omega
          rw [ih pr.2 (isWordChar (pr.1.getLastD c)) f1' f2'
            (by omega) (by omega) (by omega)]

theorem subScanGo_id (pat : List PatElem) :
    ∀ (fuel : Nat) (b : Bool) (l : List Char),
      (∀ l' : List Char, l' <:+ l → matchToken pat l' = none) →
      subScanGo pat fuel b l = l := by
  intro fuel
  induction fuel with
  | zero => intro b l _; rfl
  | succ fuel ih =>
    intro b l hnone
    cases l with
    | nil => rfl
    | cons c rest =>
      have hr : ∀ l' : List Char, l' <:+ rest → matchToken pat l' = none :=
        fun l' hl' => hnone l' (hl'.trans (List.suffix_cons c rest))
      simp only [subScanGo]
      cases b with
      | true =>
        simp only [if_true]
        rw [ih (isWordChar c) rest hr]
      | false =>
        simp only [Bool.false_eq_true, if_false]
        rw [hnone (c :: rest) (List.suffix_refl _)]
        rw [ih (isWordChar c) rest hr]

theorem subScanGo_space_cons (pat : List PatElem) (hne : pat ≠ [])
    (hlo : ∀ e ∈ pat, 1 ≤ e.lo) (hsep : ∀ e ∈ pat, e.cls ' ' = false)
    (y : List Char) (b : Bool) :
    subScanGo pat (y.length + 1) b (' ' :: y) =
      ' ' :: subScanGo pat y.length false y := by
  have hmt : matchToken pat (' ' :: y) = none := by
    obtain ⟨e, es, rfl⟩ : ∃ e es, pat = e :: es := by
      cases pat with
      | nil => exact absurd rfl hne
      | cons e es => exact ⟨e, es, rfl⟩
    have hz : runLen e.cls (' ' :: y) = 0 := by
      simp [runLen, hsep e (by simp)]
    unfold matchToken
    rw [matchElems_head_fail (hlo e (by simp)) hz]
  have hw : isWordChar ' ' = false := rfl
  simp only [subScanGo]
  cases b with
  | true => rw [if_pos rfl, hw]
  | false =>
    simp only [Bool.false_eq_true, if_false]
    rw [hmt, hw]

theorem subScanGo_split (pat : List PatElem) (hne : pat ≠ [])
    (hlo : ∀ e ∈ pat, 1 ≤ e.lo) (hsep : ∀ e ∈ pat, e.cls ' ' = false) :
    ∀ (n : Nat) (x y : List Char) (b : Bool), x.length ≤ n →
      subScanGo pat (x ++ ' ' :: y).length b (x ++ ' ' :: y) =
        subScanGo pat x.length b x ++ ' ' :: subScanGo pat y.length false y := by
  intro n
  induction n with
  | zero =>
    intro x y b hn
    have hx : x = [] := List.eq_nil_of_length_eq_zero (by omega)
    subst hx
    simp only [List.nil_append, List.length_cons, List.length_nil]
    exact subScanGo_space_cons pat hne hlo hsep y b
  | succ n ih =>
    intro x y b hn
    cases x with
    | nil =>
      simp only [List.nil_append, List.length_cons, List.length_nil]
      exact subScanGo_space_cons pat hne hlo hsep y b
    | cons c xt =>
      simp only [List.cons_append, List.length_cons] at hn ⊢
      simp only [subScanGo]
      cases b with
      | true =>
        rw [if_pos rfl, if_pos rfl]
        rw [show (xt ++ ' ' :: y).length = xt.length + 1 + y.length by
          simp [List.length_append]; omega] at *
        rw [show xt.length + 1 + y.length = (xt ++ ' ' :: y).length by
          simp [List.length_append]; omega]
        rw [ih xt y (isWordChar c) (by omega)]
        rfl
      | false =>
        simp only [Bool.false_eq_true, if_false]
        have hsplit := matchToken_split (y := y) hsep rfl (c :: xt)
        rw [show c :: (xt ++ ' ' :: y) = (c :: xt) ++ ' ' :: y from rfl, hsplit]
        cases hmt : matchToken pat (c :: xt) with
        | none =>
          dsimp only
          rw [show (xt ++ ' ' :: y).length = xt.length + 1 + y.length by
            simp [List.length_append]; omega]
          rw [show xt.length + 1 + y.length = (xt ++ ' ' :: y).length by
            simp [List.length_append]; omega]
          rw [ih xt y (isWordChar c) (by omega)]
          rfl
        | some pr =>
          simp only [Option.map_some']
          obtain ⟨e, es, hpe⟩ : ∃ e es, pat = e :: es := by
            cases pat with
            | nil => exact absurd rfl hne
            | cons e es => exact ⟨e, es, rfl⟩
          have hme := matchToken_eq_some hmt
          have happ : c :: xt = pr.1 ++ pr.2 := by
            exact @matchElems_append pat (c :: xt) pr.1 pr.2
              (by rw [Prod.mk.eta]; exact hme)
          have hcne : pr.1 ≠ [] := by
            subst hpe
            exact matchElems_ne_nil hlo (by rw [Prod.mk.eta]; exact hme)
          have hlen : pr.2.length ≤ xt.length := by
            have hlc : (c :: xt).length = pr.1.length + pr.2.length := by
              rw [happ, List.length_append]
            have h1' : 1 ≤ pr.1.length := by
              cases hp : pr.1 with
              | nil => exact absurd hp hcne
              | cons _ _ => simp
            simp only [List.length_cons] at hlc
            omega
          -- left side: normalize the fuel, then split the tail scan
          have hfuel1 : subScanGo pat (xt ++ ' ' :: y).length
              (isWordChar (pr.1.getLastD c)) (pr.2 ++ ' ' :: y) =
              subScanGo pat (pr.2 ++ ' ' :: y).length
              (isWordChar (pr.1.getLastD c)) (pr.2 ++ ' ' :: y) := by
            apply subScanGo_fuel_eq pat hne hlo ((pr.2 ++ ' ' :: y).length)
            · exact le_refl _
            · simp [List.length_append]; omega
            · exact le_refl _
          have hfuel2 : subScanGo pat xt.length
              (isWordChar (pr.1.getLastD c)) pr.2 =
              subScanGo pat pr.2.length
              (isWordChar (pr.1.getLastD c)) pr.2 := by
            apply subScanGo_fuel_eq pat hne hlo pr.2.length
            · exact le_refl _
            · omega
            · exact le_refl _
          rw [hfuel1, hfuel2, ih pr.2 y (isWordChar (pr.1.getLastD c)) (by omega)]
          rw [← hfuel2]
          rfl

theorem reSub_append (pat : List PatElem) (hne : pat ≠ [])
    (hlo : ∀ e ∈ pat, 1 ≤ e.lo) (hsep : ∀ e ∈ pat, e.cls ' ' = false)
    (a b : String) :
    reSub pat (a ++ " " ++ b) = reSub pat a ++ " " ++ reSub pat b := by
  apply String.ext
  have hdata : (a ++ " " ++ b).data = a.data ++ ' ' :: b.data := by
    rw [String.data_append, String.data_append]
    simp [show (" " : String).data = [' '] from rfl]
  show subScanGo pat (a ++ " " ++ b).data.length false (a ++ " " ++ b).data =
    (reSub pat a ++ " " ++ reSub pat b).data
  rw [hdata, String.data_append, String.data_append]
  rw [subScanGo_split pat hne hlo hsep a.data.length a.data b.data false
    (le_refl _)]
  show _ = subScanGo pat a.data.length false a.data ++ (" " : String).data ++
    subScanGo pat b.data.length false b.data
  simp [show (" " : String).data = [' '] from rfl]

theorem reSub_id (pat : List PatElem) (s : String)
    (h : ∀ l' : List Char, l' <:+ s.data → matchToken pat l' = none) :
    reSub pat s = s := by
  apply String.ext
  exact subScanGo_id pat s.data.length false s.data h

theorem reSub_exact (pat : List PatElem) (s : String)
    (h : matchToken pat s.data = some (s.data, []))
    (hne : s.data ≠ []) :
    reSub pat s = "*" := by
  apply String.ext
  show subScanGo pat s.data.length false s.data = ['*']
  cases hs : s.data with
  | nil => exact absurd hs hne
  | cons c rest =>
    rw [hs] at h
    simp only [List.length_cons, subScanGo, Bool.false_eq_true, if_false, h]
    rw [subScanGo_nil]

theorem reSub_joinWords (pat : List PatElem) (hne : pat ≠ [])
    (hlo : ∀ e ∈ pat, 1 ≤ e.lo) (hsep : ∀ e ∈ pat, e.cls ' ' = false) :
    ∀ ws : List String, reSub pat (joinWords ws) = joinWords (ws.map (reSub pat)) := by
  intro ws
  induction ws with
  | nil => rfl
  | cons w ws ih =>
    cases ws with
    | nil => rfl
    | cons v rest =>
      show reSub pat (w ++ " " ++ joinWords (v :: rest)) =
        reSub pat w ++ " " ++ joinWords ((v :: rest).map (reSub pat))
      rw [reSub_append pat hne hlo hsep, ih]

theorem getTemplate_joinWords (ws : List String) :
    getTemplate (joinWords ws) = joinWords (ws.map getTemplate) := by
  unfold getTemplate
  rw [reSub_joinWords uuidPat (by simp [uuidPat]) (by decide) (by decide),
    reSub_joinWords ipv4Pat (by simp [ipv4Pat]) (by decide) (by decide),
    reSub_joinWords digitsPat (by simp [digitsPat]) (by decide) (by decide),
    List.map_map, List.map_map]
  rfl

theorem matchToken_uuid_none {l : List Char} (hnd : '-' ∉ l) :
    matchToken uuidPat l = none := by
  unfold matchToken
  have hz : ∀ j, runLen isDashCh (l.drop j) = 0 := by
    intro j
    apply runLen_zero_of_all_not
    intro c hc
    have : c ∈ l := List.mem_of_mem_drop hc
    have hcd : ¬ c = '-' := fun h => hnd (h ▸ this)
    simp [isDashCh, hcd]
  have hme : matchElems uuidPat l = none := by
    simp only [uuidPat]
    exact matchElems_second_fail (by decide) hz
  rw [hme]

theorem matchToken_ipv4_none {l : List Char} (hnd : '.' ∉ l) :
    matchToken ipv4Pat l = none := by
  unfold matchToken
  have hz : ∀ j, runLen isDotCh (l.drop j) = 0 := by
    intro j
    apply runLen_zero_of_all_not
    intro c hc
    have : c ∈ l := List.mem_of_mem_drop hc
    have hcd : ¬ c = '.' := fun h => hnd (h ▸ this)
    simp [isDotCh, hcd]
  have hme : matchElems ipv4Pat l = none := by
    simp only [ipv4Pat]
    exact matchElems_second_fail (by decide) hz
  rw [hme]

theorem reSub_uuid_id_of_no_dash (s : String) (hnd : '-' ∉ s.data) :
    reSub uuidPat s = s := by
  apply reSub_id
  intro l' hl'
  exact matchToken_uuid_none (fun hm => hnd (hl'.subset hm))

theorem reSub_ipv4_id_of_no_dot (s : String) (hnd : '.' ∉ s.data) :
    reSub ipv4Pat s = s := by
  apply reSub_id
  intro l' hl'
  exact matchToken_ipv4_none (fun hm => hnd (hl'.subset hm))

theorem hex_not_dash : ∀ c : Char, hexLowerCh c = true → isDashCh c = false := by
  intro c h
  by_cases hc : c = '-'
  · subst hc; exact absurd h (by decide)
  · simp [isDashCh, hc]

theorem digit_not_dot : ∀ c : Char, isDigitCh c = true → isDotCh c = false := by
  intro c h
  by_cases hc : c = '.'
  · subst hc; exact absurd h (by decide)
  · simp [isDotCh, hc]

theorem take_one_append_all {p q : Char → Bool} {h rest : List Char}
    (hne : h ≠ []) (hall : ∀ c ∈ h, p c = true)
    (himp : ∀ c, p c = true → q c = false) :
    ∀ c ∈ (h ++ rest).take 1, q c = false := by
  cases hh : h with
  | nil => exact absurd hh hne
  | cons a t =>
    intro c hc
    simp only [List.cons_append, List.take_succ_cons, List.take_zero,
      List.mem_singleton] at hc
    subst hc
    exact himp c (hall c (by simp [hh]))

theorem matchElems_hex_cons {n : Nat} {es : List PatElem}
    {seg rest c2 r : List Char}
    (hseg : HexSeg n seg)
    (hstop : ∀ c ∈ rest.take 1, hexLowerCh c = false)
    (hrec : matchElems es rest = some (c2, r)) :
    matchElems (⟨hexLowerCh, n, some n⟩ :: es) (seg ++ rest) =
      some (seg ++ c2, r) := by
  obtain ⟨hlen, hall⟩ := hseg
  exact matchElems_cons_exact (runLen_append_of_stop hall hstop)
    (by simp [hlen]) (by intro hh hh'; cases hh'; simp [hlen]) hrec

theorem matchElems_dash_cons {es : List PatElem} {rest c2 r : List Char}
    (hstop : ∀ c ∈ rest.take 1, isDashCh c = false)
    (hrec : matchElems es rest = some (c2, r)) :
    matchElems (⟨isDashCh, 1, some 1⟩ :: es) ('-' :: rest) =
      some ('-' :: c2, r) := by
  have := @matchElems_cons_exact ⟨isDashCh, 1, some 1⟩ es ['-'] rest c2 r
    (runLen_append_of_stop (by decide) hstop)
    (by simp) (by intro hh hh'; cases hh'; simp) hrec
  simpa using this

theorem matchElems_dot_cons {es : List PatElem} {rest c2 r : List Char}
    (hstop : ∀ c ∈ rest.take 1, isDotCh c = false)
    (hrec : matchElems es rest = some (c2, r)) :
    matchElems (⟨isDotCh, 1, some 1⟩ :: es) ('.' :: rest) =
      some ('.' :: c2, r) := by
  have := @matchElems_cons_exact ⟨isDotCh, 1, some 1⟩ es ['.'] rest c2 r
    (runLen_append_of_stop (by decide) hstop)
    (by simp) (by intro hh hh'; cases hh'; simp) hrec
  simpa using this

theorem matchElems_octet_cons {es : List PatElem} {seg rest c2 r : List Char}
    (hseg : OctetShape seg)
    (hstop : ∀ c ∈ rest.take 1, isDigitCh c = false)
    (hrec : matchElems es rest = some (c2, r)) :
    matchElems (⟨isDigitCh, 1, some 3⟩ :: es) (seg ++ rest) =
      some (seg ++ c2, r) := by
  obtain ⟨hne, hlen, hall⟩ := hseg
  refine matchElems_cons_exact (runLen_append_of_stop hall hstop) ?_
    (by intro hh hh'; cases hh'; exact hlen) hrec
  cases hs : seg with
  | nil => exact absurd hs hne
  | cons a t => simp

theorem take_one_all {p q : Char → Bool} {h : List Char}
    (hne : h ≠ []) (hall : ∀ c ∈ h, p c = true)
    (himp : ∀ c, p c = true → q c = false) :
    ∀ c ∈ h.take 1, q c = false := by
  have := @take_one_append_all p q h [] hne hall himp
  simpa using this

theorem take_one_dash_stop {X : List Char} :
    ∀ c ∈ ('-' :: X).take 1, hexLowerCh c = false := by
  intro c hc
  simp only [List.take_succ_cons, List.take_zero, List.mem_singleton] at hc
  subst hc
  decide

theorem take_one_dot_stop {X : List Char} :
    ∀ c ∈ ('.' :: X).take 1, isDigitCh c = false := by
  intro c hc
  simp only [List.take_succ_cons, List.take_zero, List.mem_singleton] at hc
  subst hc
  decide

theorem matchToken_uuid_exact {w : String} (h : UuidShape w) :
    matchToken uuidPat w.data = some (w.data, []) := by
  obtain ⟨h1, h2, h3, h4, h5, hd, hs1, hs2, hs3, hs4, hs5⟩ := h
  have hne2 : h2 ≠ [] := by
    intro he; have := hs2.1; rw [he] at this; simp at this
  have hne3 : h3 ≠ [] := by
    intro he; have := hs3.1; rw [he] at this; simp at this
  have hne4 : h4 ≠ [] := by
    intro he; have := hs4.1; rw [he] at this; simp at this
  have hne5 : h5 ≠ [] := by
    intro he; have := hs5.1; rw [he] at this; simp at this
  have hm5 : matchElems [⟨hexLowerCh, 12, some 12⟩] h5 = some (h5, []) := by
    have := @matchElems_hex_cons 12 [] h5 [] [] []
      hs5 (by simp) rfl
    simpa using this
  have hm4d := matchElems_dash_cons (take_one_all hne5 hs5.2 hex_not_dash) hm5
  have hm4 := matchElems_hex_cons hs4 take_one_dash_stop hm4d
  have hm3d := matchElems_dash_cons (take_one_append_all hne4 hs4.2 hex_not_dash) hm4
  have hm3 := matchElems_hex_cons hs3 take_one_dash_stop hm3d
  have hm2d := matchElems_dash_cons (take_one_append_all hne3 hs3.2 hex_not_dash) hm3
  have hm2 := matchElems_hex_cons hs2 take_one_dash_stop hm2d
  have hm1d := matchElems_dash_cons (take_one_append_all hne2 hs2.2 hex_not_dash) hm2
  have hm1 := matchElems_hex_cons hs1 take_one_dash_stop hm1d
  have hfull : matchElems uuidPat w.data = some (w.data, []) := by
    rw [hd]
    exact hm1
  unfold matchToken
  rw [hfull]
  simp [endBoundary]

theorem matchToken_ipv4_exact {w : String} (h : Ipv4Shape w) :
    matchToken ipv4Pat w.data = some (w.data, []) := by
  obtain ⟨d1, d2, d3, d4, hd, hs1, hs2, hs3, hs4⟩ := h
  have hm4 : matchElems [⟨isDigitCh, 1, some 3⟩] d4 = some (d4, []) := by
    have := @matchElems_octet_cons [] d4 [] [] []
      hs4 (by simp) rfl
    simpa using this
  have hm3d := matchElems_dot_cons (take_one_all hs4.1 hs4.2.2 digit_not_dot) hm4
  have hm3 := matchElems_octet_cons hs3 take_one_dot_stop hm3d
  have hm2d := matchElems_dot_cons (take_one_append_all hs3.1 hs3.2.2 digit_not_dot) hm3
  have hm2 := matchElems_octet_cons hs2 take_one_dot_stop hm2d
  have hm1d := matchElems_dot_cons (take_one_append_all hs2.1 hs2.2.2 digit_not_dot) hm2
  have hm1 := matchElems_octet_cons hs1 take_one_dot_stop hm1d
  have hfull : matchElems ipv4Pat w.data = some (w.data, []) := by
    rw [hd]
    exact hm1
  unfold matchToken
  rw [hfull]
  simp [endBoundary]

theorem matchToken_digits_exact {l : List Char} (hne : l ≠ [])
    (hall : ∀ c ∈ l, isDigitCh c = true) :
    matchToken digitsPat l = some (l, []) := by
  have hme : matchElems digitsPat l = some (l, []) := by
    have := @matchElems_cons_exact ⟨isDigitCh, 1, none⟩ [] l [] [] []
      (by rw [List.append_nil]; exact runLen_all hall)
      (by cases hl : l with
        | nil => exact absurd hl hne
        | cons a t => simp)
      (by intro hh hh'; cases hh') rfl
    simpa using this
  unfold matchToken
  rw [hme]
  simp [endBoundary]

theorem getTemplate_star_passes :
    reSub ipv4Pat "*" = "*" ∧ reSub digitsPat "*" = "*" := by decide

theorem getTemplate_uuidShape {w : String} (h : UuidShape w) :
    getTemplate w = "*" := by
  have hne : w.data ≠ [] := by
    obtain ⟨h1, h2, h3, h4, h5, hd, hs1, _⟩ := h
    rw [hd]
    intro he
    have : h1 = [] := by
      cases h1 with
      | nil => rfl
      | cons a t => simp at he
    rw [this] at hs1
    have := hs1.1
    simp at this
  have h1 : reSub uuidPat w = "*" :=
    reSub_exact uuidPat w (matchToken_uuid_exact h) hne
  unfold getTemplate
  rw [h1, getTemplate_star_passes.1, getTemplate_star_passes.2]

theorem ipv4Shape_chars {w : String} (h : Ipv4Shape w) :
    ∀ c ∈ w.data, isDigitCh c = true ∨ c = '.' := by
  obtain ⟨d1, d2, d3, d4, hd, hs1, hs2, hs3, hs4⟩ := h
  intro c hc
  rw [hd] at hc
  simp only [List.mem_append, List.mem_cons] at hc
  rcases hc with h' | h' | h' | h' | h' | h' | h'
  · exact Or.inl (hs1.2.2 c h')
  · exact Or.inr h'
  · exact Or.inl (hs2.2.2 c h')
  · exact Or.inr h'
  · exact Or.inl (hs3.2.2 c h')
  · exact Or.inr h'
  · exact Or.inl (hs4.2.2 c h')

theorem getTemplate_ipv4Shape {w : String} (h : Ipv4Shape w) :
    getTemplate w = "*" := by
  have hchars := ipv4Shape_chars h
  have hnd : '-' ∉ w.data := by
    intro hm
    rcases hchars '-' hm with h' | h'
    · exact absurd h' (by decide)
    · exact absurd h' (by decide)
  have hne : w.data ≠ [] := by
    obtain ⟨d1, d2, d3, d4, hd, hs1, _⟩ := h
    rw [hd]
    intro he
    have : d1 = [] := by
      cases d1 with
      | nil => rfl
      | cons a t => simp at he
    exact absurd this hs1.1
  have h2 : reSub ipv4Pat w = "*" :=
    reSub_exact ipv4Pat w (matchToken_ipv4_exact h) hne
  unfold getTemplate
  rw [reSub_uuid_id_of_no_dash w hnd, h2, getTemplate_star_passes.2]

theorem getTemplate_digitsShape {w : String} (h : DigitsShape w) :
    getTemplate w = "*" := by
  obtain ⟨hne, hall⟩ := h
  have hnd : '-' ∉ w.data := fun hm => absurd (hall '-' hm) (by decide)
  have hdot : '.' ∉ w.data := fun hm => absurd (hall '.' hm) (by decide)
  unfold getTemplate
  rw [reSub_uuid_id_of_no_dash w hnd, reSub_ipv4_id_of_no_dot w hdot]
  exact reSub_exact digitsPat w (matchToken_digits_exact hne hall) hne

theorem getTemplate_wordRel {w1 w2 : String} (h : wordRel w1 w2) :
    getTemplate w1 = getTemplate w2 := by
  rcases h with rfl | ⟨a, b⟩ | ⟨a, b⟩ | ⟨a, b⟩
  · rfl
  · rw [getTemplate_uuidShape a, getTemplate_uuidShape b]
  · rw [getTemplate_ipv4Shape a, getTemplate_ipv4Shape b]
  · rw [getTemplate_digitsShape a, getTemplate_digitsShape b]

theorem getTemplate_forall2 {ws1 ws2 : List String}
    (h : List.Forall₂ wordRel ws1 ws2) :
    getTemplate (joinWords ws1) = getTemplate (joinWords ws2) := by
  rw [getTemplate_joinWords, getTemplate_joinWords]
  have hmap : ws1.map getTemplate = ws2.map getTemplate := by
    induction h with
    | nil => rfl
    | cons hw ht ih => simp [getTemplate_wordRel hw, ih]
  rw [hmap]


/-- C5 counterexample: the bodies `deploy v1 done` and `deploy v2 done`
differ only in a run of decimal digits (the numeric substring `1`
vs `2`), yet their templates and fingerprints differ: `\b\d+\b`
does not fire on digits embedded in a word, and `_get_template` does no
other normalization. -/
theorem counterexample_C5 :
    getTemplate c5recA.Body ≠ getTemplate c5recB.Body ∧
      getRhythmHash embed0 c5recA ≠ getRhythmHash embed0 c5recB := by
  constructor
  · decide
  · decide

/-- C5 (amended): bodies that are equal word for word except that some
whole space-delimited words are exchanged for other tokens of the same
kind — canonical lowercase UUID, IPv4 dotted quad of 1-3 digit octets,
or nonempty digit run — have equal templates (each such token becomes
`*`), and records carrying such bodies with equal attribute key lists
have equal fingerprints.  Digit or hex material embedded inside a
larger word is not normalized (see the counterexample). -/
theorem claim_C5 (ws1 ws2 : List String)
    (h : List.Forall₂ wordRel ws1 ws2) :
    getTemplate (joinWords ws1) = getTemplate (joinWords ws2) ∧
    ∀ (embedStr : String → String) (r1 r2 : OTelLogRecord),
      r1.Body = joinWords ws1 → r2.Body = joinWords ws2 →
      r1.Attributes.map (·.key) = r2.Attributes.map (·.key) →
      getRhythmHash embedStr r1 = getRhythmHash embedStr r2 := by
  have htpl := getTemplate_forall2 h
  refine ⟨htpl, ?_⟩
  intro embedStr r1 r2 hb1 hb2 hk
  have ht : getTemplate r1.Body = getTemplate r2.Body := by
    rw [hb1, hb2, htpl]
  unfold getRhythmHash
  rw [ht, hk]

/-- C5 witness: `user 42 ok` and `user 9999 ok` differ in one whole-word
digit run; the templates and the fingerprints agree. -/
theorem witness_C5 :
    getTemplate (joinWords ["user", "42", "ok"]) =
      getTemplate (joinWords ["user", "9999", "ok"]) ∧
    getRhythmHash embed0 c5recC = getRhythmHash embed0 c5recD := by
  have hf : List.Forall₂ wordRel ["user", "42", "ok"] ["user", "9999", "ok"] :=
    .cons (Or.inl rfl)
      (.cons (Or.inr (Or.inr (Or.inr
        ⟨⟨by decide, by decide⟩, ⟨by decide, by decide⟩⟩)))
        (.cons (Or.inl rfl) .nil))
  exact ⟨(claim_C5 _ _ hf).1,
    (claim_C5 _ _ hf).2 embed0 c5recC c5recD rfl rfl rfl⟩

end VIA
